import Mathlib

/-!
The zmqpp poller: registration engine and wait engine.

A shallow embedding of `src/zmqpp/poller.cpp`.

* `std::vector<zmq_pollitem_t> _items` is a `List zmq_pollitem_t`
  (`push_back` appends at the end, `pop_back` is `List.dropLast`).
* `std::unordered_map<void*, size_t> _index` and
  `std::unordered_map<int, size_t> _fdindex` are association lists read through
  `Index.find`; only the lookup function of such a list is observable.
* A `void*` socket handle is a `Nat`, `0` standing for `nullptr`; `int`
  descriptors and `short` event masks are `Int`; positions (`size_t`) are `Nat`.
* Every operation returns an `Outcome`: a normal return, a thrown C++ exception
  together with the state the object is left in, or undefined behaviour
  (an out-of-range vector access).
-/

namespace zmqpp

/-- The poll item of `zmq.h`: `void* socket; int fd; short events; short revents;`. -/
structure zmq_pollitem_t where
  socket : Nat
  fd : Int
  events : Int
  revents : Int
deriving DecidableEq, Repr

/-! ## The index maps -/

namespace Index

/-- Lookup `m.find(k)`: the recorded position of key `k`, `none` for `m.end()`. -/
def find {κ : Type} [DecidableEq κ] : List (κ × Nat) → κ → Option Nat
  | [], _ => none
  | (k', v) :: m, k => if k' = k then some v else find m k

/-- Assignment `m[k] = v` (and `found->second = v` on an existing node): the
value of an existing key is overwritten in place, a new key gets a new node. -/
def assign {κ : Type} [DecidableEq κ] : List (κ × Nat) → κ → Nat → List (κ × Nat)
  | [], k, v => [(k, v)]
  | (k', v') :: m, k, v => if k' = k then (k, v) :: m else (k', v') :: assign m k v

/-- Removal `m.erase(found)` of the node of key `k`. -/
def erase {κ : Type} [DecidableEq κ] (m : List (κ × Nat)) (k : κ) : List (κ × Nat) :=
  m.filter (fun kv => decide (kv.1 ≠ k))

/-- The keys of the map, in node order. -/
def keys {κ : Type} (m : List (κ × Nat)) : List κ :=
  m.map Prod.fst

/-- Number of keys `m.size()`. -/
def size {κ : Type} [DecidableEq κ] (m : List (κ × Nat)) : Nat :=
  (keys m).dedup.length

end Index

/-! ## State and outcomes -/

/-- The data members of `zmqpp::poller`. -/
structure poller where
  items : List zmq_pollitem_t
  index : List (Nat × Nat)
  fdindex : List (Int × Nat)
deriving DecidableEq, Repr

/-- The exceptions thrown in `poller.cpp`, one constructor per message. -/
inductive error where
  /-- Thrown as `exception("this socket is not represented within this poller")` -/
  | socket_not_represented
  /-- Thrown as `exception("this file descriptor is not represented within this poller")` -/
  | descriptor_not_represented
  /-- Thrown as `exception("unable to reindex socket in poller")` -/
  | unable_to_reindex_socket
  /-- Thrown as `exception("unable to reindex file descriptor in poller")` -/
  | unable_to_reindex_descriptor
  /-- Thrown as `zmq_internal_exception()` -/
  | zmq_internal_exception
deriving DecidableEq, Repr

/-- The two usage errors: the identity is not represented within the poller. -/
def error.not_represented : error → Bool
  | .socket_not_represented => true
  | .descriptor_not_represented => true
  | _ => false

/-- The two internal-consistency errors of `reindex`. -/
def error.unable_to_reindex : error → Bool
  | .unable_to_reindex_socket => true
  | .unable_to_reindex_descriptor => true
  | _ => false

/-- How a member function ends: it returns `v` leaving state `s`, it throws `e`
leaving state `s`, or it runs into undefined behaviour. -/
inductive Outcome (α : Type) where
  | ok (v : α) (s : poller)
  | thrown (e : error) (s : poller)
  | undefined
deriving DecidableEq, Repr

/-- The state an outcome leaves behind, when there is one. -/
def Outcome.state {α : Type} : Outcome α → Option poller
  | .ok _ s => some s
  | .thrown _ s => some s
  | .undefined => none

/-- The exception an outcome carries, when it is a throw. -/
def Outcome.raised {α : Type} : Outcome α → Option error
  | .thrown e _ => some e
  | _ => none

/-- A caller-facing identity: a socket (seen through its `void*` handle) or a
file descriptor. It selects the overload of `add`, `has`, `remove`,
`check_for` and `events`. -/
inductive identity where
  | socket (handle : Nat)
  | descriptor (fd : Int)
deriving DecidableEq, Repr

namespace poller

/-- The constructor `poller::poller()`: empty store, empty indices. -/
def empty : poller :=
  { items := [], index := [], fdindex := [] }

/-- Source: `void poller::add(socket& socket, short const event)` -/
def add_socket (s : poller) (socket : Nat) (event : Int) : Outcome Unit :=
  let item : zmq_pollitem_t := { socket := socket, fd := 0, events := event, revents := 0 }
  let index := s.items.length
  .ok () { s with items := s.items ++ [item], index := Index.assign s.index socket index }

/-- Source: `void poller::add(int const descriptor, short const event)` -/
def add_descriptor (s : poller) (descriptor : Int) (event : Int) : Outcome Unit :=
  let item : zmq_pollitem_t := { socket := 0, fd := descriptor, events := event, revents := 0 }
  let index := s.items.length
  .ok () { s with items := s.items ++ [item], fdindex := Index.assign s.fdindex descriptor index }

/-- Source: `void poller::add(zmq_pollitem_t item)` -/
def add_item (s : poller) (item : zmq_pollitem_t) : Outcome Unit :=
  let index := s.items.length
  if item.socket = 0 then
    .ok () { s with items := s.items ++ [item], fdindex := Index.assign s.fdindex item.fd index }
  else
    .ok () { s with items := s.items ++ [item], index := Index.assign s.index item.socket index }

/-- Source: `bool poller::has(socket_t const& socket)` -/
def has_socket (s : poller) (socket : Nat) : Bool :=
  (Index.find s.index socket).isSome

/-- Source: `bool poller::has(int const descriptor)` -/
def has_descriptor (s : poller) (descriptor : Int) : Bool :=
  (Index.find s.fdindex descriptor).isSome

/-- Source: `bool poller::has(const zmq_pollitem_t &item)` -/
def has_item (s : poller) (item : zmq_pollitem_t) : Bool :=
  if item.socket ≠ 0 then (Index.find s.index item.socket).isSome
  else (Index.find s.fdindex item.fd).isSome

/-- Source: `void poller::reindex(size_t const index)`; reading `_items[index]` out of
range is undefined behaviour. -/
def reindex (s : poller) (index : Nat) : Outcome Unit :=
  match s.items[index]? with
  | none => .undefined
  | some item =>
    if item.socket ≠ 0 then
      match Index.find s.index item.socket with
      | none => .thrown .unable_to_reindex_socket s
      | some _ => .ok () { s with index := Index.assign s.index item.socket index }
    else
      match Index.find s.fdindex item.fd with
      | none => .thrown .unable_to_reindex_descriptor s
      | some _ => .ok () { s with fdindex := Index.assign s.fdindex item.fd index }

/-- Source: `void poller::remove(socket_t const& socket)`.

On an empty store `_items.size() - 1` wraps around to `SIZE_MAX`, and then
either `pop_back()` or `_items[found->second]` and `back()` act on an empty
vector: undefined behaviour on both branches. `std::swap(_items[p], _items.back())`
followed by `pop_back()` leaves `(items.set p back).dropLast`. -/
def remove_socket (s : poller) (socket : Nat) : Outcome Unit :=
  match Index.find s.index socket with
  | none => .ok () s
  | some found =>
    match s.items.getLast? with
    | none => .undefined
    | some back =>
      if s.items.length - 1 = found then
        .ok () { s with items := s.items.dropLast, index := Index.erase s.index socket }
      else if found < s.items.length then
        reindex { s with items := (s.items.set found back).dropLast,
                         index := Index.erase s.index socket } found
      else .undefined

/-- Source: `void poller::remove(int const descriptor)`; see `remove_socket`. -/
def remove_descriptor (s : poller) (descriptor : Int) : Outcome Unit :=
  match Index.find s.fdindex descriptor with
  | none => .ok () s
  | some found =>
    match s.items.getLast? with
    | none => .undefined
    | some back =>
      if s.items.length - 1 = found then
        .ok () { s with items := s.items.dropLast, fdindex := Index.erase s.fdindex descriptor }
      else if found < s.items.length then
        reindex { s with items := (s.items.set found back).dropLast,
                         fdindex := Index.erase s.fdindex descriptor } found
      else .undefined

/-- Source: `void poller::remove(const zmq_pollitem_t &item)` -/
def remove_item (s : poller) (item : zmq_pollitem_t) : Outcome Unit :=
  if item.socket = 0 then remove_descriptor s item.fd
  else
    match Index.find s.index item.socket with
    | none => .ok () s
    | some found =>
      match s.items.getLast? with
      | none => .undefined
      | some back =>
        if s.items.length - 1 = found then
          .ok () { s with items := s.items.dropLast, index := Index.erase s.index item.socket }
        else if found < s.items.length then
          reindex { s with items := (s.items.set found back).dropLast,
                           index := Index.erase s.index item.socket } found
        else .undefined

/-- The assignment `_items[p].events = event`; out of range it is undefined
behaviour. -/
def set_events (s : poller) (p : Nat) (event : Int) : Outcome Unit :=
  match s.items[p]? with
  | none => .undefined
  | some item => .ok () { s with items := s.items.set p { item with events := event } }

/-- Source: `void poller::check_for(socket const& socket, short const event)` -/
def check_for_socket (s : poller) (socket : Nat) (event : Int) : Outcome Unit :=
  match Index.find s.index socket with
  | none => .thrown .socket_not_represented s
  | some found => set_events s found event

/-- Source: `void poller::check_for(int const descriptor, short const event)`; the
message is the socket one in the source too. -/
def check_for_descriptor (s : poller) (descriptor : Int) (event : Int) : Outcome Unit :=
  match Index.find s.fdindex descriptor with
  | none => .thrown .socket_not_represented s
  | some found => set_events s found event

/-- Source: `void poller::check_for(const zmq_pollitem_t &item, short const event)` -/
def check_for_item (s : poller) (item : zmq_pollitem_t) (event : Int) : Outcome Unit :=
  if item.socket = 0 then check_for_descriptor s item.fd event
  else
    match Index.find s.index item.socket with
    | none => .thrown .socket_not_represented s
    | some found => set_events s found event

/-- The read `_items[p].revents`; out of range it is undefined behaviour. -/
def get_revents (s : poller) (p : Nat) : Outcome Int :=
  match s.items[p]? with
  | none => .undefined
  | some item => .ok item.revents s

/-- Source: `short poller::events(socket const& socket) const` -/
def events_socket (s : poller) (socket : Nat) : Outcome Int :=
  match Index.find s.index socket with
  | none => .thrown .socket_not_represented s
  | some found => get_revents s found

/-- Source: `short poller::events(int const descriptor) const` -/
def events_descriptor (s : poller) (descriptor : Int) : Outcome Int :=
  match Index.find s.fdindex descriptor with
  | none => .thrown .descriptor_not_represented s
  | some found => get_revents s found

/-- Source: `short poller::events(const zmq_pollitem_t &item) const` -/
def events_item (s : poller) (item : zmq_pollitem_t) : Outcome Int :=
  if item.socket = 0 then events_descriptor s item.fd
  else
    match Index.find s.index item.socket with
    | none => .thrown .socket_not_represented s
    | some found => get_revents s found

/-! ### Overload resolution on an identity -/

/-- The call `add(x, event)`. -/
def add (s : poller) (x : identity) (event : Int) : Outcome Unit :=
  match x with
  | .socket h => add_socket s h event
  | .descriptor d => add_descriptor s d event

/-- The call `has(x)`. -/
def has (s : poller) (x : identity) : Bool :=
  match x with
  | .socket h => has_socket s h
  | .descriptor d => has_descriptor s d

/-- The call `remove(x)`. -/
def remove (s : poller) (x : identity) : Outcome Unit :=
  match x with
  | .socket h => remove_socket s h
  | .descriptor d => remove_descriptor s d

/-- The call `check_for(x, event)`. -/
def check_for (s : poller) (x : identity) (event : Int) : Outcome Unit :=
  match x with
  | .socket h => check_for_socket s h event
  | .descriptor d => check_for_descriptor s d event

/-- The call `events(x)`. -/
def events (s : poller) (x : identity) : Outcome Int :=
  match x with
  | .socket h => events_socket s h
  | .descriptor d => events_descriptor s d

/-! ### The wait engine -/

/-- What a call of the native `zmq_poll` leaves behind: its `int` result, the
value `zmq_errno()` reads afterwards, and the item array it wrote into. -/
structure native_result where
  result : Int
  errno : Int
  items : List zmq_pollitem_t
deriving DecidableEq, Repr

/-- The error code `EINTR` of `errno.h` (its Linux value). -/
def EINTR : Int := 4

/-- Source: `bool poller::poll(long timeout)`, over an arbitrary native primitive
`zmq_poll(items, nitems, timeout)`. -/
def poll (zmq_poll : List zmq_pollitem_t → Nat → Int → native_result)
    (s : poller) (timeout : Int) : Outcome Bool :=
  let r := zmq_poll s.items s.items.length timeout
  let s' : poller := { s with items := r.items }
  if r.result < 0 then
    if EINTR = r.errno then .ok false s'
    else .thrown .zmq_internal_exception s'
  else .ok (decide (r.result > 0)) s'

end poller

/-! ## Sequences of calls -/

/-- One registration call issued by a caller. -/
inductive call where
  | add (x : identity) (event : Int)
  | remove (x : identity)
  | check_for (x : identity) (event : Int)
deriving DecidableEq, Repr

/-- Perform one call. -/
def call.perform (c : call) (s : poller) : Outcome Unit :=
  match c with
  | .add x e => s.add x e
  | .remove x => s.remove x
  | .check_for x e => s.check_for x e

/-- Run a sequence of calls in which every call returns normally; `none` as
soon as one throws or is undefined. -/
def run : List call → poller → Option poller
  | [], s => some s
  | c :: cs, s =>
    match c.perform s with
    | .ok _ s' => run cs s'
    | _ => none

/-- Run a sequence of calls whose caller catches every exception and goes on
with the state the throwing call left; `none` only on undefined behaviour. -/
def exec : List call → poller → Option poller
  | [], s => some s
  | c :: cs, s =>
    match (c.perform s).state with
    | some s' => exec cs s'
    | none => none

/-! ## Vocabulary of the specification -/

/-- The identity payload of a stored entry, read with the discriminant that
`reindex` uses: a non-null `socket` field makes it a socket entry, a null one a
descriptor entry identified by `fd`. -/
def zmq_pollitem_t.ident (item : zmq_pollitem_t) : identity :=
  if item.socket ≠ 0 then .socket item.socket else .descriptor item.fd

/-- The entry has identity `x`: its `socket` field is the handle, or its
`socket` field is null and its `fd` field is the descriptor. -/
def zmq_pollitem_t.has_identity (item : zmq_pollitem_t) : identity → Prop
  | .socket h => item.socket = h
  | .descriptor d => item.socket = 0 ∧ item.fd = d

/-- A socket identity is usable when its handle is not `nullptr`; every
descriptor is. -/
def identity.valid : identity → Prop
  | .socket h => h ≠ 0
  | .descriptor _ => True

/-- The identity a call operates on. -/
def call.subject : call → identity
  | .add x _ => x
  | .remove x => x
  | .check_for x _ => x

/-- The position the matching index records for `x` (`found->second`). -/
def poller.position (s : poller) : identity → Option Nat
  | .socket h => Index.find s.index h
  | .descriptor d => Index.find s.fdindex d

/-- The entry `x` resolves to: the store entry at the recorded position. -/
def poller.resolve (s : poller) (x : identity) : Option zmq_pollitem_t :=
  match s.position x with
  | none => none
  | some p => s.items[p]?

/-- Index soundness: every key of the handle index maps to a position inside
the store whose entry has that handle in its `socket` field, and every key of
the descriptor index maps to a position inside the store whose entry has a null
`socket` field and that descriptor in its `fd` field. -/
def poller.index_sound (s : poller) : Prop :=
  (∀ h p, Index.find s.index h = some p →
    p < s.items.length ∧ ∃ item, s.items[p]? = some item ∧ item.socket = h) ∧
  (∀ d p, Index.find s.fdindex d = some p →
    p < s.items.length ∧ ∃ item, s.items[p]? = some item ∧ item.socket = 0 ∧ item.fd = d)

/-- Invariant I1: every store position is the value of exactly one key taken
over both index maps, and that key is the identity payload of the entry there
(so it lies in the handle index iff the `socket` field is non-null). -/
def poller.I1 (s : poller) : Prop :=
  ∀ p item, s.items[p]? = some item →
    s.position item.ident = some p ∧ ∀ x, s.position x = some p → x = item.ident

/-- No call of the sequence adds an identity that `has` reports as registered
at the time of the call (the sequence is followed as `exec` does). -/
def fresh_adds : List call → poller → Bool
  | [], _ => true
  | c :: cs, s =>
    (match c with
      | .add x _ => !s.has x
      | _ => true) &&
    (match (c.perform s).state with
      | some s' => fresh_adds cs s'
      | none => true)

/-! ## One view of both overload families

The socket and descriptor overloads differ only in the index they use; the
definitions below name that index through the identity, so that the two
families can be reasoned about together. -/

/-- The state in which the matching index records position `p` for `x`. -/
def poller.set_position (s : poller) (x : identity) (p : Nat) : poller :=
  match x with
  | .socket h => { s with index := Index.assign s.index h p }
  | .descriptor d => { s with fdindex := Index.assign s.fdindex d p }

/-- The state in which the key `x` is erased from the matching index. -/
def poller.erase_position (s : poller) (x : identity) : poller :=
  match x with
  | .socket h => { s with index := Index.erase s.index h }
  | .descriptor d => { s with fdindex := Index.erase s.fdindex d }

/-- The state with the store replaced. -/
def poller.with_items (s : poller) (l : List zmq_pollitem_t) : poller :=
  { s with items := l }

/-- The item literal that `add(x, event)` pushes. -/
def identity.item (x : identity) (event : Int) : zmq_pollitem_t :=
  match x with
  | .socket h => { socket := h, fd := 0, events := event, revents := 0 }
  | .descriptor d => { socket := 0, fd := d, events := event, revents := 0 }

/-- The exception `reindex` throws when the identity of `item` is not found. -/
def zmq_pollitem_t.reindex_error (item : zmq_pollitem_t) : error :=
  if item.socket ≠ 0 then .unable_to_reindex_socket else .unable_to_reindex_descriptor

/-- The exception `events(x)` throws on an unregistered identity. -/
def identity.events_error : identity → error
  | .socket _ => .socket_not_represented
  | .descriptor _ => .descriptor_not_represented

/-! ## Invariants of the registration engine -/

/-- Every recorded position holds an entry whose identity payload is the key
recording it. -/
def poller.traced (s : poller) : Prop :=
  ∀ x p, s.position x = some p → ∃ item, s.items[p]? = some item ∧ item.ident = x

/-- Every store entry is recorded, at its own position, under its identity
payload. -/
def poller.covered (s : poller) : Prop :=
  ∀ p item, s.items[p]? = some item → s.position item.ident = some p

/-- The number of keys of both indices together. -/
def poller.key_count (s : poller) : Nat :=
  Index.size s.index + Index.size s.fdindex

/-- The three invariants together; they hold in every state reached with
non-null handles and without adding a registered identity again. -/
def poller.good (s : poller) : Prop :=
  s.traced ∧ s.covered ∧ s.items.length = s.key_count

instance identity.decidable_valid (x : identity) : Decidable x.valid :=
  match x with
  | .socket h => inferInstanceAs (Decidable (h ≠ 0))
  | .descriptor _ => inferInstanceAs (Decidable True)

instance zmq_pollitem_t.decidable_has_identity (item : zmq_pollitem_t) (x : identity) :
    Decidable (item.has_identity x) :=
  match x with
  | .socket h => inferInstanceAs (Decidable (item.socket = h))
  | .descriptor d => inferInstanceAs (Decidable (item.socket = 0 ∧ item.fd = d))

end zmqpp

/-! ## Lemmas on the index maps -/

namespace zmqpp

namespace Index

variable {κ : Type} [DecidableEq κ]

theorem find_assign (m : List (κ × Nat)) (k : κ) (v : Nat) (k' : κ) :
    find (assign m k v) k' = if k' = k then some v else find m k' := by
  induction m with
  | nil =>
    by_cases h : k' = k
    · simp [assign, find, h]
    · have h' : ¬ k = k' := fun e => h e.symm
      simp [assign, find, h, h']
  | cons kv m ih =>
    obtain ⟨a, b⟩ := kv
    by_cases hak : a = k
    · by_cases h : k' = k
      · simp [assign, find, hak, h]
      · have h' : ¬ k = k' := fun e => h e.symm
        simp [assign, find, hak, h, h']
    · by_cases h : k' = k
      · subst h
        simp [assign, find, hak, ih]
      · by_cases hak' : a = k'
        · simp [assign, find, hak, hak', h]
        · simp [assign, find, hak, hak', h, ih]

theorem erase_nil (k : κ) : erase ([] : List (κ × Nat)) k = [] := rfl

theorem erase_cons (a : κ) (b : Nat) (m : List (κ × Nat)) (k : κ) :
    erase ((a, b) :: m) k = if a = k then erase m k else (a, b) :: erase m k := by
  unfold erase
  by_cases hak : a = k
  · simp [List.filter_cons, hak]
  · simp [List.filter_cons, hak]

theorem find_erase (m : List (κ × Nat)) (k k' : κ) :
    find (erase m k) k' = if k' = k then none else find m k' := by
  induction m with
  | nil => simp [erase_nil, find]
  | cons kv m ih =>
    obtain ⟨a, b⟩ := kv
    rw [erase_cons]
    by_cases hak : a = k
    · by_cases h : k' = k
      · subst h
        simp [hak, ih]
      · have h' : ¬ k = k' := fun e => h e.symm
        simp [hak, h, h', ih, find]
    · by_cases h : k' = k
      · subst h
        simp [hak, ih, find]
      · simp [hak, h, ih, find]

theorem erase_of_find_none (m : List (κ × Nat)) (k : κ) (h : find m k = none) :
    erase m k = m := by
  induction m with
  | nil => rfl
  | cons kv m ih =>
    obtain ⟨a, b⟩ := kv
    by_cases hak : a = k
    · simp [find, hak] at h
    · simp only [find, hak, if_false] at h
      rw [erase_cons, if_neg hak, ih h]

theorem mem_keys_iff (m : List (κ × Nat)) (k : κ) :
    k ∈ keys m ↔ (find m k).isSome = true := by
  induction m with
  | nil => simp [keys, find]
  | cons kv m ih =>
    obtain ⟨a, b⟩ := kv
    by_cases hak : a = k
    · simp [keys, find, hak]
    · have hka : ¬ k = a := fun e => hak e.symm
      unfold keys at ih
      simp [keys, find, hak, hka, ih]

theorem keys_assign_of_found (m : List (κ × Nat)) (k : κ) (v : Nat)
    (h : (find m k).isSome = true) : keys (assign m k v) = keys m := by
  induction m with
  | nil => simp [find] at h
  | cons kv m ih =>
    obtain ⟨a, b⟩ := kv
    by_cases hak : a = k
    · simp [assign, keys, hak]
    · simp only [find, hak, if_false] at h
      have := ih h
      unfold keys at this
      simp [assign, keys, hak, this]

theorem keys_assign_of_absent (m : List (κ × Nat)) (k : κ) (v : Nat)
    (h : find m k = none) : keys (assign m k v) = keys m ++ [k] := by
  induction m with
  | nil => simp [assign, keys]
  | cons kv m ih =>
    obtain ⟨a, b⟩ := kv
    by_cases hak : a = k
    · simp [find, hak] at h
    · simp only [find, hak, if_false] at h
      have := ih h
      unfold keys at this
      simp [assign, keys, hak, this]

theorem keys_erase (m : List (κ × Nat)) (k : κ) :
    keys (erase m k) = (keys m).filter (fun a => decide (a ≠ k)) := by
  induction m with
  | nil => rfl
  | cons kv m ih =>
    obtain ⟨a, b⟩ := kv
    rw [erase_cons]
    by_cases hak : a = k
    · rw [if_pos hak, ih]
      simp [keys, List.filter_cons, hak]
    · rw [if_neg hak]
      have : keys ((a, b) :: erase m k) = a :: keys (erase m k) := rfl
      rw [this, ih]
      simp [keys, List.filter_cons, hak]

theorem size_eq_card (m : List (κ × Nat)) : size m = (keys m).toFinset.card := by
  unfold size
  exact (List.card_toFinset _).symm

theorem size_assign_of_found (m : List (κ × Nat)) (k : κ) (v : Nat)
    (h : (find m k).isSome = true) : size (assign m k v) = size m := by
  unfold size
  rw [keys_assign_of_found m k v h]

theorem size_assign_of_absent (m : List (κ × Nat)) (k : κ) (v : Nat)
    (h : find m k = none) : size (assign m k v) = size m + 1 := by
  have hk : k ∉ (keys m).toFinset := by
    rw [List.mem_toFinset, mem_keys_iff, h]
    simp
  rw [size_eq_card, size_eq_card, keys_assign_of_absent m k v h]
  have : (keys m ++ [k]).toFinset = insert k (keys m).toFinset := by
    ext a
    simp [or_comm]
  rw [this, Finset.card_insert_of_not_mem hk]

theorem size_erase_of_found (m : List (κ × Nat)) (k : κ)
    (h : (find m k).isSome = true) : size (erase m k) + 1 = size m := by
  have hk : k ∈ (keys m).toFinset := by
    rw [List.mem_toFinset, mem_keys_iff]
    exact h
  rw [size_eq_card, size_eq_card, keys_erase]
  have : ((keys m).filter (fun a => decide (a ≠ k))).toFinset = (keys m).toFinset.erase k := by
    ext a
    simp [and_comm]
  rw [this, Finset.card_erase_of_mem hk]
  have : 0 < (keys m).toFinset.card := Finset.card_pos.mpr ⟨k, hk⟩
  omega

end Index

end zmqpp

/-! ## The overloads through the identity view -/

namespace zmqpp

namespace poller

theorem has_eq (s : poller) (x : identity) : s.has x = (s.position x).isSome := by
  cases x <;> rfl

theorem position_set_position (s : poller) (x : identity) (p : Nat) (y : identity) :
    (s.set_position x p).position y = if y = x then some p else s.position y := by
  cases x <;> cases y <;> simp [set_position, position, Index.find_assign]

theorem position_erase_position (s : poller) (x y : identity) :
    (s.erase_position x).position y = if y = x then none else s.position y := by
  cases x <;> cases y <;> simp [erase_position, position, Index.find_erase]

theorem position_with_items (s : poller) (l : List zmq_pollitem_t) (y : identity) :
    (s.with_items l).position y = s.position y := by
  cases y <;> rfl

theorem items_set_position (s : poller) (x : identity) (p : Nat) :
    (s.set_position x p).items = s.items := by
  cases x <;> rfl

theorem items_erase_position (s : poller) (x : identity) :
    (s.erase_position x).items = s.items := by
  cases x <;> rfl

theorem items_with_items (s : poller) (l : List zmq_pollitem_t) :
    (s.with_items l).items = l := rfl

theorem add_eq (s : poller) (x : identity) (e : Int) :
    s.add x e = .ok () ((s.set_position x s.items.length).with_items (s.items ++ [x.item e])) := by
  cases x <;> rfl

theorem reindex_eq (s : poller) (p : Nat) :
    s.reindex p =
      match s.items[p]? with
      | none => .undefined
      | some item =>
        match s.position item.ident with
        | none => .thrown item.reindex_error s
        | some _ => .ok () (s.set_position item.ident p) := by
  unfold reindex
  cases hi : s.items[p]? with
  | none => rfl
  | some item =>
    by_cases hs : item.socket = 0
    · simp only [zmq_pollitem_t.ident, zmq_pollitem_t.reindex_error, hs, ne_eq,
        not_true_eq_false, if_false, position]
      cases Index.find s.fdindex item.fd <;> rfl
    · simp only [zmq_pollitem_t.ident, zmq_pollitem_t.reindex_error, hs, ne_eq,
        not_false_eq_true, if_true, position]
      cases Index.find s.index item.socket <;> rfl

theorem remove_eq (s : poller) (x : identity) :
    s.remove x =
      match s.position x with
      | none => .ok () s
      | some found =>
        match s.items.getLast? with
        | none => .undefined
        | some back =>
          if s.items.length - 1 = found then
            .ok () ((s.erase_position x).with_items s.items.dropLast)
          else if found < s.items.length then
            reindex ((s.erase_position x).with_items (s.items.set found back).dropLast) found
          else .undefined := by
  cases x <;> rfl

theorem check_for_eq (s : poller) (x : identity) (e : Int) :
    s.check_for x e =
      match s.position x with
      | none => .thrown .socket_not_represented s
      | some found => s.set_events found e := by
  cases x <;> rfl

theorem events_eq (s : poller) (x : identity) :
    s.events x =
      match s.position x with
      | none => .thrown x.events_error s
      | some found => s.get_revents found := by
  cases x <;> rfl

end poller

end zmqpp

/-! ## What `remove` does to a registered identity -/

namespace zmqpp

namespace poller

theorem back_of_pos (s : poller) (h : 0 < s.items.length) :
    ∃ back, s.items[s.items.length - 1]? = some back := by
  have hlt : s.items.length - 1 < s.items.length := by omega
  exact ⟨s.items[s.items.length - 1], List.getElem?_eq_getElem hlt⟩

theorem swap_pop_getElem? (l : List zmq_pollitem_t) (p : Nat) (back : zmq_pollitem_t)
    (hp : p < l.length) (q : Nat) :
    ((l.set p back).dropLast)[q]? =
      if q < l.length - 1 then (if q = p then some back else l[q]?) else none := by
  rw [List.getElem?_dropLast, List.length_set, List.getElem?_set]
  by_cases hq : q < l.length - 1
  · by_cases hqp : q = p
    · subst hqp
      simp [hq, hp]
    · have : ¬ p = q := fun e => hqp e.symm
      simp [hq, hqp, this]
  · simp [hq]

/-- The three ways `remove(x)` ends when `x` is recorded at a position inside
the store: the entry is last; the moved entry cannot be reindexed; the moved
entry is reindexed. -/
theorem remove_found (s : poller) (x : identity) (p : Nat)
    (hp : s.position x = some p) (hlt : p < s.items.length) :
    ∃ back, s.items[s.items.length - 1]? = some back ∧
      ((p = s.items.length - 1 ∧
          s.remove x = .ok () ((s.erase_position x).with_items s.items.dropLast)) ∨
       (p ≠ s.items.length - 1 ∧ (back.ident = x ∨ s.position back.ident = none) ∧
          s.remove x = .thrown back.reindex_error
            ((s.erase_position x).with_items (s.items.set p back).dropLast)) ∨
       (p ≠ s.items.length - 1 ∧ back.ident ≠ x ∧ (s.position back.ident).isSome = true ∧
          s.remove x = .ok ()
            (((s.erase_position x).with_items (s.items.set p back).dropLast).set_position
              back.ident p))) := by
  obtain ⟨back, hback⟩ := s.back_of_pos (by omega)
  refine ⟨back, hback, ?_⟩
  have hlast : s.items.getLast? = some back := by
    rw [List.getLast?_eq_getElem?]
    exact hback
  by_cases hpl : p = s.items.length - 1
  · left
    refine ⟨hpl, ?_⟩
    rw [remove_eq, hp]
    simp only [hlast]
    rw [if_pos hpl.symm]
  · right
    have hpl' : ¬ s.items.length - 1 = p := fun e => hpl e.symm
    have hplt : p < s.items.length - 1 := by omega
    have hrem : s.remove x =
        reindex ((s.erase_position x).with_items (s.items.set p back).dropLast) p := by
      rw [remove_eq, hp]
      simp only [hlast]
      rw [if_neg hpl', if_pos hlt]
    have hitem : ((s.erase_position x).with_items (s.items.set p back).dropLast).items[p]?
        = some back := by
      rw [items_with_items, swap_pop_getElem? _ _ _ hlt]
      simp [hplt]
    have hpos : ((s.erase_position x).with_items (s.items.set p back).dropLast).position
        back.ident = if back.ident = x then none else s.position back.ident := by
      rw [position_with_items, position_erase_position]
    rw [hrem, reindex_eq]
    simp only [hitem]
    rw [hpos]
    by_cases hbx : back.ident = x
    · left
      refine ⟨hpl, Or.inl hbx, ?_⟩
      rw [if_pos hbx]
    · rw [if_neg hbx]
      cases hf : s.position back.ident with
      | none =>
        left
        exact ⟨hpl, Or.inr rfl, rfl⟩
      | some v =>
        right
        exact ⟨hpl, hbx, rfl, rfl⟩

/-- The state `remove(x)` leaves when `x` is recorded at a position inside the
store: the store after the swap and pop, and the positions of all identities. -/
theorem remove_state (s : poller) (x : identity) (p : Nat)
    (hp : s.position x = some p) (hlt : p < s.items.length) :
    ∃ back s', s.items[s.items.length - 1]? = some back ∧
      (s.remove x).state = some s' ∧
      (∀ q, s'.items[q]? =
        if q < s.items.length - 1 then (if q = p then some back else s.items[q]?) else none) ∧
      (∀ y, s'.position y =
        if y = x then none
        else if p ≠ s.items.length - 1 ∧ y = back.ident ∧ (s.position y).isSome = true
          then some p
        else s.position y) ∧
      ((s.remove x).raised = none ↔
        (p = s.items.length - 1 ∨ (back.ident ≠ x ∧ (s.position back.ident).isSome = true))) := by
  obtain ⟨back, hback, hcases⟩ := s.remove_found x p hp hlt
  rcases hcases with ⟨hpl, hr⟩ | ⟨hpl, hthrow, hr⟩ | ⟨hpl, hbx, hfound, hr⟩
  · refine ⟨back, _, hback, by rw [hr]; rfl, ?_, ?_, ?_⟩
    · intro q
      rw [items_with_items, List.getElem?_dropLast]
      by_cases hq : q < s.items.length - 1
      · have : q ≠ p := by omega
        simp [hq, this]
      · simp [hq]
    · intro y
      rw [position_with_items, position_erase_position]
      by_cases hy : y = x
      · simp [hy]
      · simp [hy, hpl]
    · rw [hr]
      simp [Outcome.raised, hpl]
  · refine ⟨back, _, hback, by rw [hr]; rfl, ?_, ?_, ?_⟩
    · intro q
      rw [items_with_items, swap_pop_getElem? _ _ _ hlt]
    · intro y
      rw [position_with_items, position_erase_position]
      by_cases hy : y = x
      · simp [hy]
      · rw [if_neg hy, if_neg hy]
        have : ¬ (p ≠ s.items.length - 1 ∧ y = back.ident ∧ (s.position y).isSome = true) := by
          rintro ⟨_, hyb, hs⟩
          rcases hthrow with h | h
          · exact hy (hyb.trans h)
          · rw [hyb, h] at hs
            simp at hs
        rw [if_neg this]
    · rw [hr]
      simp only [Outcome.raised]
      constructor
      · intro h
        cases h
      · rintro (h | ⟨h1, h2⟩)
        · exact absurd h hpl
        · rcases hthrow with h | h
          · exact absurd h h1
          · rw [h] at h2
            simp at h2
  · refine ⟨back, _, hback, by rw [hr]; rfl, ?_, ?_, ?_⟩
    · intro q
      rw [items_set_position, items_with_items, swap_pop_getElem? _ _ _ hlt]
    · intro y
      rw [position_set_position, position_with_items, position_erase_position]
      by_cases hy : y = x
      · subst hy
        have : ¬ y = back.ident := fun e => hbx e.symm
        simp [this]
      · rw [if_neg hy, if_neg hy]
        by_cases hyb : y = back.ident
        · subst hyb
          simp [hpl, hfound]
        · simp [hyb]
    · rw [hr]
      simp [Outcome.raised, hbx, hfound]

end poller

end zmqpp

/-! ## Index soundness along every sequence of calls -/

namespace zmqpp

theorem ident_has_identity (item : zmq_pollitem_t) : item.has_identity item.ident := by
  unfold zmq_pollitem_t.ident
  by_cases h : item.socket = 0
  · simp [h, zmq_pollitem_t.has_identity]
  · simp [h, zmq_pollitem_t.has_identity]

theorem ident_valid (item : zmq_pollitem_t) : item.ident.valid := by
  unfold zmq_pollitem_t.ident
  by_cases h : item.socket = 0
  · simp [h, identity.valid]
  · simp [h, identity.valid]

theorem ident_of_has_identity (item : zmq_pollitem_t) (x : identity)
    (hv : x.valid) (h : item.has_identity x) : item.ident = x := by
  cases x with
  | socket k =>
    have hk : k ≠ 0 := hv
    have hs : item.socket = k := h
    simp [zmq_pollitem_t.ident, hs, hk]
  | descriptor d =>
    obtain ⟨hs, hd⟩ := h
    simp [zmq_pollitem_t.ident, hs, hd]

theorem ident_item (x : identity) (e : Int) (hv : x.valid) : (x.item e).ident = x := by
  cases x with
  | socket k =>
    have hk : k ≠ 0 := hv
    simp [zmq_pollitem_t.ident, identity.item, hk]
  | descriptor d => simp [zmq_pollitem_t.ident, identity.item]

namespace poller

theorem traced_lt (s : poller) (h : s.traced) (x : identity) (p : Nat)
    (hp : s.position x = some p) : p < s.items.length := by
  obtain ⟨item, hi, _⟩ := h x p hp
  by_contra hn
  rw [List.getElem?_eq_none (by omega)] at hi
  cases hi

theorem traced_index_sound (s : poller) (h : s.traced) : s.index_sound := by
  constructor
  · intro k p hk
    have hp : s.position (.socket k) = some p := hk
    obtain ⟨item, hi, hid⟩ := h _ p hp
    refine ⟨s.traced_lt h _ p hp, item, hi, ?_⟩
    have := ident_has_identity item
    rw [hid] at this
    exact this
  · intro d p hd
    have hp : s.position (.descriptor d) = some p := hd
    obtain ⟨item, hi, hid⟩ := h _ p hp
    refine ⟨s.traced_lt h _ p hp, item, hi, ?_⟩
    have := ident_has_identity item
    rw [hid] at this
    exact this

theorem traced_empty : empty.traced := by
  intro x p hp
  cases x <;> simp [position, empty, Index.find] at hp

theorem traced_add (s : poller) (h : s.traced) (x : identity) (e : Int) (hv : x.valid) :
    ∃ s', s.add x e = .ok () s' ∧ s'.traced := by
  refine ⟨_, s.add_eq x e, ?_⟩
  intro y p hp
  rw [position_with_items, position_set_position] at hp
  rw [items_with_items]
  by_cases hy : y = x
  · rw [if_pos hy] at hp
    cases hp
    refine ⟨x.item e, ?_, ?_⟩
    · rw [List.getElem?_append_right (le_refl _)]
      simp
    · rw [hy]
      exact ident_item x e hv
  · rw [if_neg hy] at hp
    obtain ⟨item, hi, hid⟩ := h y p hp
    refine ⟨item, ?_, hid⟩
    rw [List.getElem?_append_left (s.traced_lt h y p hp)]
    exact hi

theorem traced_remove (s : poller) (h : s.traced) (x : identity) :
    ∃ s', (s.remove x).state = some s' ∧ s'.traced := by
  cases hp : s.position x with
  | none =>
    refine ⟨s, ?_, h⟩
    rw [remove_eq, hp]
    rfl
  | some p =>
    have hlt := s.traced_lt h x p hp
    obtain ⟨back, s', hback, hst, hitems, hpos, _⟩ := s.remove_state x p hp hlt
    refine ⟨s', hst, ?_⟩
    intro y q hq
    rw [hpos] at hq
    by_cases hy : y = x
    · rw [if_pos hy] at hq
      cases hq
    · rw [if_neg hy] at hq
      by_cases hc : p ≠ s.items.length - 1 ∧ y = back.ident ∧ (s.position y).isSome = true
      · rw [if_pos hc] at hq
        cases hq
        refine ⟨back, ?_, hc.2.1.symm⟩
        rw [hitems]
        have : p < s.items.length - 1 := by
          have := hc.1
          omega
        simp [this]
      · rw [if_neg hc] at hq
        obtain ⟨item, hi, hid⟩ := h y q hq
        obtain ⟨itx, hix, hidx⟩ := h x p hp
        have hqlt := s.traced_lt h y q hq
        have hqp : q ≠ p := by
          intro e
          rw [e, hix] at hi
          cases hi
          exact hy (hid.symm.trans hidx)
        have hql : q ≠ s.items.length - 1 := by
          intro e
          rw [e, hback] at hi
          cases hi
          apply hc
          refine ⟨?_, hid.symm, ?_⟩
          · intro e'
            exact hqp (e.trans e'.symm)
          · rw [hq]
            rfl
        refine ⟨item, ?_, hid⟩
        rw [hitems]
        have : q < s.items.length - 1 := by omega
        simp [this, hqp, hi]

theorem set_events_eq (s : poller) (p : Nat) (e : Int) (item : zmq_pollitem_t)
    (hi : s.items[p]? = some item) :
    s.set_events p e = .ok () (s.with_items (s.items.set p { item with events := e })) := by
  unfold set_events
  rw [hi]
  rfl

theorem traced_check_for (s : poller) (h : s.traced) (x : identity) (e : Int) :
    ∃ s', (s.check_for x e).state = some s' ∧ s'.traced := by
  cases hp : s.position x with
  | none =>
    refine ⟨s, ?_, h⟩
    rw [check_for_eq, hp]
    rfl
  | some p =>
    obtain ⟨itx, hix, _⟩ := h x p hp
    refine ⟨s.with_items (s.items.set p { itx with events := e }), ?_, ?_⟩
    · rw [check_for_eq, hp]
      simp only []
      rw [s.set_events_eq p e itx hix]
      rfl
    · intro y q hq
      rw [position_with_items] at hq
      obtain ⟨item, hi, hid⟩ := h y q hq
      rw [items_with_items, List.getElem?_set]
      by_cases hpq : p = q
      · subst hpq
        rw [hix] at hi
        cases hi
        refine ⟨{ itx with events := e }, ?_, ?_⟩
        · simp [s.traced_lt h x p hp]
        · rw [← hid]
          rfl
      · exact ⟨item, by simp [hpq, hi], hid⟩

theorem traced_perform (s : poller) (h : s.traced) (c : call) (hv : c.subject.valid) :
    ∃ s', (c.perform s).state = some s' ∧ s'.traced := by
  cases c with
  | add x e =>
    obtain ⟨s', hs, ht⟩ := s.traced_add h x e hv
    exact ⟨s', by simp [call.perform, hs, Outcome.state], ht⟩
  | remove x => exact s.traced_remove h x
  | check_for x e => exact s.traced_check_for h x e

end poller

theorem traced_exec (cs : List call) (hv : ∀ c ∈ cs, c.subject.valid) (s : poller)
    (h : s.traced) : ∃ s', exec cs s = some s' ∧ s'.traced := by
  induction cs generalizing s with
  | nil => exact ⟨s, rfl, h⟩
  | cons c cs ih =>
    obtain ⟨s1, hs1, ht1⟩ := s.traced_perform h c (hv c (List.mem_cons_self _ _))
    obtain ⟨s2, hs2, ht2⟩ := ih (fun c' hc' => hv c' (List.mem_cons_of_mem _ hc')) s1 ht1
    refine ⟨s2, ?_, ht2⟩
    simp only [exec, hs1]
    exact hs2

end zmqpp

/-! ## Invariant I1 without repeated registration -/

namespace zmqpp

theorem Outcome.eq_ok_of_state {o : Outcome Unit} {s : poller}
    (hs : o.state = some s) (hr : o.raised = none) : o = .ok () s := by
  cases o with
  | ok v s1 =>
    simp only [Outcome.state, Option.some.injEq] at hs
    rw [hs]
  | thrown e s1 => simp [Outcome.raised] at hr
  | undefined => simp [Outcome.state] at hs

namespace poller

theorem key_count_with_items (s : poller) (l : List zmq_pollitem_t) :
    (s.with_items l).key_count = s.key_count := rfl

theorem key_count_set_position_found (s : poller) (x : identity) (p : Nat)
    (h : (s.position x).isSome = true) : (s.set_position x p).key_count = s.key_count := by
  cases x with
  | socket k =>
    have hk : (Index.find s.index k).isSome = true := h
    simp [key_count, set_position, Index.size_assign_of_found _ _ _ hk]
  | descriptor d =>
    have hd : (Index.find s.fdindex d).isSome = true := h
    simp [key_count, set_position, Index.size_assign_of_found _ _ _ hd]

theorem key_count_set_position_absent (s : poller) (x : identity) (p : Nat)
    (h : s.position x = none) : (s.set_position x p).key_count = s.key_count + 1 := by
  cases x with
  | socket k =>
    have hk : Index.find s.index k = none := h
    simp only [key_count, set_position, Index.size_assign_of_absent _ _ _ hk]
    omega
  | descriptor d =>
    have hd : Index.find s.fdindex d = none := h
    simp only [key_count, set_position, Index.size_assign_of_absent _ _ _ hd]
    omega

theorem key_count_erase_position_found (s : poller) (x : identity)
    (h : (s.position x).isSome = true) : (s.erase_position x).key_count + 1 = s.key_count := by
  cases x with
  | socket k =>
    have hk : (Index.find s.index k).isSome = true := h
    have := Index.size_erase_of_found _ _ hk
    simp only [key_count, erase_position]
    omega
  | descriptor d =>
    have hd : (Index.find s.fdindex d).isSome = true := h
    have := Index.size_erase_of_found _ _ hd
    simp only [key_count, erase_position]
    omega

theorem good_empty : empty.good := by
  refine ⟨traced_empty, ?_, ?_⟩
  · intro p item hi
    simp [empty] at hi
  · simp [empty, key_count, Index.size, Index.keys]

theorem good_add (s : poller) (h : s.good) (x : identity) (e : Int) (hv : x.valid)
    (hfresh : s.position x = none) : ∃ s', s.add x e = .ok () s' ∧ s'.good := by
  obtain ⟨ht, hc, hn⟩ := h
  obtain ⟨s', hs', ht'⟩ := s.traced_add ht x e hv
  refine ⟨s', hs', ht', ?_, ?_⟩
  · have heq := s.add_eq x e
    rw [hs'] at heq
    cases heq
    intro q item hi
    rw [items_with_items, List.getElem?_append] at hi
    rw [position_with_items, position_set_position]
    by_cases hq : q < s.items.length
    · rw [if_pos hq] at hi
      have hpos := hc q item hi
      have hne : item.ident ≠ x := by
        intro e'
        rw [e', hfresh] at hpos
        cases hpos
      rw [if_neg hne]
      exact hpos
    · rw [if_neg hq] at hi
      have hq' : q = s.items.length := by
        by_contra hne
        have : 1 ≤ q - s.items.length := by omega
        rw [List.getElem?_eq_none (by simpa using this)] at hi
        cases hi
      subst hq'
      simp only [Nat.sub_self, List.getElem?_cons_zero, Option.some.injEq] at hi
      rw [← hi, ident_item x e hv]
      simp
  · have heq := s.add_eq x e
    rw [hs'] at heq
    cases heq
    rw [items_with_items, key_count_with_items, key_count_set_position_absent _ _ _ hfresh,
      List.length_append, hn]
    rfl

theorem good_remove (s : poller) (h : s.good) (x : identity) :
    ∃ s', s.remove x = .ok () s' ∧ s'.good := by
  obtain ⟨ht, hc, hn⟩ := h
  cases hp : s.position x with
  | none =>
    refine ⟨s, ?_, ht, hc, hn⟩
    rw [remove_eq, hp]
  | some p =>
    have hlt := s.traced_lt ht x p hp
    obtain ⟨s1, hst1, ht1⟩ := s.traced_remove ht x
    obtain ⟨back, s', hback, hst, hitems, hpos, hraised⟩ := s.remove_state x p hp hlt
    rw [hst1] at hst
    cases hst
    have hbpos := hc _ back hback
    have hbx : p ≠ s.items.length - 1 → back.ident ≠ x := by
      intro hpl e'
      rw [e', hp] at hbpos
      cases hbpos
      exact hpl rfl
    have hok : (s.remove x).raised = none := by
      rw [hraised]
      by_cases hpl : p = s.items.length - 1
      · exact Or.inl hpl
      · exact Or.inr ⟨hbx hpl, by rw [hbpos]; rfl⟩
    have hrem := Outcome.eq_ok_of_state hst1 hok
    refine ⟨s1, hrem, ht1, ?_, ?_⟩
    · intro q item hi
      rw [hitems] at hi
      by_cases hq : q < s.items.length - 1
      · rw [if_pos hq] at hi
        rw [hpos]
        by_cases hqp : q = p
        · rw [if_pos hqp] at hi
          cases hi
          have hpl : p ≠ s.items.length - 1 := by omega
          rw [if_neg (hbx hpl), if_pos ⟨hpl, rfl, by rw [hbpos]; rfl⟩, hqp]
        · rw [if_neg hqp] at hi
          have hipos := hc q item hi
          have hne : item.ident ≠ x := by
            intro e'
            rw [e', hp] at hipos
            cases hipos
            exact hqp rfl
          have hnb : ¬ (p ≠ s.items.length - 1 ∧ item.ident = back.ident ∧
              (s.position item.ident).isSome = true) := by
            rintro ⟨_, hib, _⟩
            rw [hib, hbpos] at hipos
            cases hipos
            omega
          rw [if_neg hne, if_neg hnb]
          exact hipos
      · rw [if_neg hq] at hi
        cases hi
    · obtain ⟨back', hback', hcases⟩ := s.remove_found x p hp hlt
      have hlen : s1.items.length + 1 = s.items.length := by
        rcases hcases with ⟨_, hr⟩ | ⟨_, _, hr⟩ | ⟨_, _, _, hr⟩
        · rw [hr] at hrem
          cases hrem
          rw [items_with_items, List.length_dropLast]
          omega
        · rw [hr] at hrem
          cases hrem
        · rw [hr] at hrem
          cases hrem
          rw [items_set_position, items_with_items, List.length_dropLast, List.length_set]
          omega
      have hfound : (s.position x).isSome = true := by rw [hp]; rfl
      have hkc : s1.key_count + 1 = s.key_count := by
        rcases hcases with ⟨_, hr⟩ | ⟨_, _, hr⟩ | ⟨_, hbx', hbs, hr⟩
        · rw [hr] at hrem
          cases hrem
          rw [key_count_with_items]
          exact key_count_erase_position_found _ _ hfound
        · rw [hr] at hrem
          cases hrem
        · rw [hr] at hrem
          cases hrem
          rw [key_count_set_position_found, key_count_with_items]
          · exact key_count_erase_position_found _ _ hfound
          · rw [position_with_items, position_erase_position, if_neg hbx']
            exact hbs
      omega

theorem good_check_for (s : poller) (h : s.good) (x : identity) (e : Int) :
    ∃ s', (s.check_for x e).state = some s' ∧ s'.good := by
  obtain ⟨ht, hc, hn⟩ := h
  cases hp : s.position x with
  | none =>
    refine ⟨s, ?_, ht, hc, hn⟩
    rw [check_for_eq, hp]
    rfl
  | some p =>
    obtain ⟨s1, hst1, ht1⟩ := s.traced_check_for ht x e
    obtain ⟨itx, hix, hidx⟩ := ht x p hp
    have heq : s.check_for x e =
        .ok () (s.with_items (s.items.set p { itx with events := e })) := by
      rw [check_for_eq, hp]
      simp only []
      rw [s.set_events_eq p e itx hix]
    rw [heq] at hst1
    simp only [Outcome.state, Option.some.injEq] at hst1
    refine ⟨s1, by rw [heq, ← hst1]; rfl, ht1, ?_, ?_⟩
    · rw [← hst1]
      intro q item hi
      rw [items_with_items, List.getElem?_set] at hi
      rw [position_with_items]
      by_cases hpq : p = q
      · subst hpq
        rw [if_pos rfl, if_pos (s.traced_lt ht x p hp)] at hi
        cases hi
        exact hc p itx hix
      · rw [if_neg hpq] at hi
        exact hc q item hi
    · rw [← hst1, items_with_items, List.length_set, key_count_with_items]
      exact hn

end poller

theorem good_exec (cs : List call) (hv : ∀ c ∈ cs, c.subject.valid) (s : poller)
    (h : s.good) (hf : fresh_adds cs s = true) : ∃ s', exec cs s = some s' ∧ s'.good := by
  induction cs generalizing s with
  | nil => exact ⟨s, rfl, h⟩
  | cons c cs ih =>
    have hvc := hv c (List.mem_cons_self _ _)
    have hvcs : ∀ c' ∈ cs, c'.subject.valid := fun c' hc' => hv c' (List.mem_cons_of_mem _ hc')
    simp only [fresh_adds, Bool.and_eq_true] at hf
    obtain ⟨hf1, hf2⟩ := hf
    have hstep : ∃ s1, (c.perform s).state = some s1 ∧ s1.good := by
      cases c with
      | add x e =>
        have hfresh : s.position x = none := by
          simp only [Bool.not_eq_true', poller.has_eq] at hf1
          cases hpx : s.position x with
          | none => rfl
          | some v => rw [hpx] at hf1; cases hf1
        obtain ⟨s1, hs1, hg1⟩ := s.good_add h x e hvc hfresh
        exact ⟨s1, by simp [call.perform, hs1, Outcome.state], hg1⟩
      | remove x =>
        obtain ⟨s1, hs1, hg1⟩ := s.good_remove h x
        exact ⟨s1, by simp [call.perform, hs1, Outcome.state], hg1⟩
      | check_for x e => exact s.good_check_for h x e
    obtain ⟨s1, hs1, hg1⟩ := hstep
    rw [hs1] at hf2
    obtain ⟨s2, hs2, hg2⟩ := ih hvcs s1 hg1 hf2
    refine ⟨s2, ?_, hg2⟩
    simp only [exec, hs1]
    exact hs2

theorem good_I1 (s : poller) (h : s.good) : s.I1 := by
  obtain ⟨ht, hc, _⟩ := h
  intro p item hi
  refine ⟨hc p item hi, ?_⟩
  intro x hx
  obtain ⟨item', hi', hid⟩ := ht x p hx
  rw [hi] at hi'
  cases hi'
  exact hid.symm

end zmqpp

/-! ## Registration status along a sequence of calls -/

namespace zmqpp

namespace poller

theorem has_set_position (s : poller) (x : identity) (p : Nat) (y : identity) :
    (s.set_position x p).has y = if y = x then true else s.has y := by
  rw [has_eq, has_eq, position_set_position]
  by_cases h : y = x <;> simp [h]

theorem has_erase_position (s : poller) (x y : identity) :
    (s.erase_position x).has y = if y = x then false else s.has y := by
  rw [has_eq, has_eq, position_erase_position]
  by_cases h : y = x <;> simp [h]

theorem has_with_items (s : poller) (l : List zmq_pollitem_t) (y : identity) :
    (s.with_items l).has y = s.has y := by
  rw [has_eq, has_eq, position_with_items]

theorem reindex_has (s : poller) (p : Nat) (s' : poller)
    (h : (s.reindex p).state = some s') (y : identity) : s'.has y = s.has y := by
  rw [reindex_eq] at h
  cases hi : s.items[p]? with
  | none => simp [hi, Outcome.state] at h
  | some item =>
    simp only [hi] at h
    cases hf : s.position item.ident with
    | none =>
      simp only [hf, Outcome.state, Option.some.injEq] at h
      rw [h]
    | some v =>
      simp only [hf, Outcome.state, Option.some.injEq] at h
      rw [← h, has_set_position]
      by_cases hy : y = item.ident
      · rw [if_pos hy, has_eq, hy, hf]
        rfl
      · rw [if_neg hy]

theorem remove_has (s : poller) (x : identity) (s' : poller)
    (h : (s.remove x).state = some s') (y : identity) :
    s'.has y = if y = x then false else s.has y := by
  rw [remove_eq] at h
  cases hp : s.position x with
  | none =>
    simp only [hp, Outcome.state, Option.some.injEq] at h
    rw [← h]
    by_cases hy : y = x
    · rw [if_pos hy, has_eq, hy, hp]
      rfl
    · rw [if_neg hy]
  | some found =>
    simp only [hp] at h
    cases hl : s.items.getLast? with
    | none => simp [hl, Outcome.state] at h
    | some back =>
      simp only [hl] at h
      by_cases h1 : s.items.length - 1 = found
      · rw [if_pos h1] at h
        simp only [Outcome.state, Option.some.injEq] at h
        rw [← h, has_with_items, has_erase_position]
      · rw [if_neg h1] at h
        by_cases h2 : found < s.items.length
        · rw [if_pos h2] at h
          rw [reindex_has _ _ _ h, has_with_items, has_erase_position]
        · rw [if_neg h2] at h
          simp [Outcome.state] at h

theorem check_for_has (s : poller) (x : identity) (e : Int) (s' : poller)
    (h : (s.check_for x e).state = some s') (y : identity) : s'.has y = s.has y := by
  rw [check_for_eq] at h
  cases hp : s.position x with
  | none =>
    simp only [hp, Outcome.state, Option.some.injEq] at h
    rw [h]
  | some found =>
    simp only [hp, set_events] at h
    cases hi : s.items[found]? with
    | none => simp [hi, Outcome.state] at h
    | some item =>
      simp only [hi, Outcome.state, Option.some.injEq] at h
      rw [← h]
      exact has_with_items s _ y

theorem add_has (s : poller) (x : identity) (e : Int) (s' : poller)
    (h : (s.add x e).state = some s') (y : identity) :
    s'.has y = if y = x then true else s.has y := by
  rw [add_eq] at h
  simp only [Outcome.state, Option.some.injEq] at h
  rw [← h, has_with_items, has_set_position]

end poller

theorem perform_has (c : call) (s s' : poller) (h : (c.perform s).state = some s')
    (y : identity) :
    s'.has y =
      match c with
      | .add x _ => if y = x then true else s.has y
      | .remove x => if y = x then false else s.has y
      | .check_for _ _ => s.has y := by
  cases c with
  | add x e => exact s.add_has x e s' h y
  | remove x => exact s.remove_has x s' h y
  | check_for x e => exact s.check_for_has x e s' h y

theorem perform_has_other (c : call) (s s' : poller) (h : (c.perform s).state = some s')
    (y : identity) (hy : c.subject ≠ y) : s'.has y = s.has y := by
  rw [perform_has c s s' h y]
  cases c with
  | add x e =>
    have : ¬ y = x := fun e' => hy e'.symm
    simp [this]
  | remove x =>
    have : ¬ y = x := fun e' => hy e'.symm
    simp [this]
  | check_for x e => rfl

theorem split_cons (c : call) (cs : List call) (x : identity) :
    (∃ pre e post, c :: cs = pre ++ call.add x e :: post ∧ call.remove x ∉ post) ↔
      ((∃ e, c = call.add x e) ∧ call.remove x ∉ cs) ∨
      (∃ pre e post, cs = pre ++ call.add x e :: post ∧ call.remove x ∉ post) := by
  constructor
  · rintro ⟨pre, e, post, heq, hnot⟩
    cases pre with
    | nil =>
      simp only [List.nil_append, List.cons.injEq] at heq
      left
      exact ⟨⟨e, heq.1⟩, by rw [heq.2]; exact hnot⟩
    | cons d pre =>
      simp only [List.cons_append, List.cons.injEq] at heq
      right
      exact ⟨pre, e, post, heq.2, hnot⟩
  · rintro (⟨⟨e, hc⟩, hnot⟩ | ⟨pre, e, post, heq, hnot⟩)
    · exact ⟨[], e, cs, by rw [hc]; rfl, hnot⟩
    · exact ⟨c :: pre, e, post, by rw [heq]; rfl, hnot⟩

theorem run_cons (c : call) (cs : List call) (s s' : poller) (h : run (c :: cs) s = some s') :
    ∃ s1, c.perform s = .ok () s1 ∧ run cs s1 = some s' := by
  simp only [run] at h
  cases hc : c.perform s with
  | ok v s1 =>
    rw [hc] at h
    exact ⟨s1, rfl, h⟩
  | thrown e s1 => rw [hc] at h; cases h
  | undefined => rw [hc] at h; cases h

theorem has_run (cs : List call) (s s' : poller) (h : run cs s = some s') (x : identity) :
    s'.has x = true ↔
      (∃ pre e post, cs = pre ++ call.add x e :: post ∧ call.remove x ∉ post) ∨
      (s.has x = true ∧ call.remove x ∉ cs) := by
  induction cs generalizing s with
  | nil =>
    simp only [run, Option.some.injEq] at h
    rw [h]
    simp
  | cons c cs ih =>
    obtain ⟨s1, hc, hrun⟩ := run_cons c cs s s' h
    have hst : (c.perform s).state = some s1 := by rw [hc]; rfl
    rw [ih s1 hrun, split_cons, perform_has c s s1 hst x]
    cases c with
    | add y e =>
      by_cases hy : x = y
      · subst hy
        simp only [if_true, true_and, List.mem_cons, false_or, reduceCtorEq]
        constructor
        · rintro (h1 | h1)
          · exact Or.inl (Or.inr h1)
          · exact Or.inl (Or.inl ⟨⟨e, rfl⟩, h1⟩)
        · rintro ((⟨_, h1⟩ | h1) | ⟨_, h1⟩)
          · exact Or.inr h1
          · exact Or.inl h1
          · exact Or.inr h1
      · have hne : ∀ e', call.add y e ≠ call.add x e' := by
          intro e' heq
          cases heq
          exact hy rfl
        simp only [hy, if_false, List.mem_cons, false_or, reduceCtorEq]
        constructor
        · rintro (h1 | h1)
          · exact Or.inl (Or.inr h1)
          · exact Or.inr h1
        · rintro ((⟨⟨e', h0⟩, _⟩ | h1) | h1)
          · exact absurd h0 (hne e')
          · exact Or.inl h1
          · exact Or.inr h1
    | remove y =>
      by_cases hy : x = y
      · subst hy
        simp
      · have hne : call.remove x ≠ call.remove y := by
          intro heq
          cases heq
          exact hy rfl
        simp [hy, hne]
    | check_for y e => simp

end zmqpp

/-! ## Removal and the other identities -/

namespace zmqpp

theorem fresh_adds_take (cs : List call) (s : poller) (n : Nat)
    (h : fresh_adds cs s = true) : fresh_adds (cs.take n) s = true := by
  induction cs generalizing s n with
  | nil => simpa using h
  | cons c cs ih =>
    cases n with
    | zero => rfl
    | succ n =>
      simp only [fresh_adds, Bool.and_eq_true, List.take_succ_cons] at h ⊢
      refine ⟨h.1, ?_⟩
      cases hst : (c.perform s).state with
      | none => rfl
      | some s1 =>
        have h2 := h.2
        rw [hst] at h2
        exact ih s1 n h2

namespace poller

/-- In a good state the removal of a registered `x` leaves every other
registered `y` registered and resolving to the very same entry. -/
theorem resolve_remove (s : poller) (h : s.good) (x y : identity) (s' : poller)
    (hx : s.has x = true) (hy : s.has y = true) (hxy : y ≠ x)
    (hs' : (s.remove x).state = some s') :
    s'.has y = true ∧ ∃ item, s.resolve y = some item ∧ s'.resolve y = some item ∧
      item.ident = y := by
  obtain ⟨ht, hc, _⟩ := h
  refine ⟨by rw [s.remove_has x s' hs' y, if_neg hxy]; exact hy, ?_⟩
  rw [has_eq] at hx hy
  obtain ⟨p, hp⟩ := Option.isSome_iff_exists.mp hx
  obtain ⟨q, hq⟩ := Option.isSome_iff_exists.mp hy
  have hlt := s.traced_lt ht x p hp
  obtain ⟨back, s1, hback, hst, hitems, hpos, _⟩ := s.remove_state x p hp hlt
  rw [hs'] at hst
  cases hst
  obtain ⟨item, hi, hid⟩ := ht y q hq
  obtain ⟨itx, hix, hidx⟩ := ht x p hp
  have hqlt := s.traced_lt ht y q hq
  have hqp : q ≠ p := by
    intro e
    rw [e, hix] at hi
    cases hi
    exact hxy (hid.symm.trans hidx)
  refine ⟨item, by simp [resolve, hq, hi], ?_, hid⟩
  have hposy := hpos y
  rw [if_neg hxy] at hposy
  by_cases hcnd : p ≠ s.items.length - 1 ∧ y = back.ident ∧ (s.position y).isSome = true
  · rw [if_pos hcnd] at hposy
    have hbq := hc _ back hback
    rw [← hcnd.2.1, hq] at hbq
    cases hbq
    rw [hback] at hi
    cases hi
    have hplt : p < s.items.length - 1 := by
      have := hcnd.1
      omega
    simp [resolve, hposy, hitems, hplt]
  · rw [if_neg hcnd] at hposy
    have hql : q ≠ s.items.length - 1 := by
      intro e
      rw [e, hback] at hi
      cases hi
      apply hcnd
      refine ⟨?_, hid.symm, by rw [hq]; rfl⟩
      intro e'
      exact hqp (e.trans e'.symm)
    have hqlt' : q < s.items.length - 1 := by omega
    simp [resolve, hposy, hq, hitems, hqlt', hqp, hi]

end poller

end zmqpp

/-! ## Lookups in a sound state, and the key sets -/

namespace zmqpp

namespace poller

theorem index_sound_lookup (s : poller) (hs : s.index_sound) (x : identity) (p : Nat)
    (hp : s.position x = some p) : p < s.items.length ∧ ∃ item, s.items[p]? = some item := by
  cases x with
  | socket k =>
    obtain ⟨hlt, item, hi, _⟩ := hs.1 k p hp
    exact ⟨hlt, item, hi⟩
  | descriptor d =>
    obtain ⟨hlt, item, hi, _⟩ := hs.2 d p hp
    exact ⟨hlt, item, hi⟩

theorem keys_set_position_found (s : poller) (x : identity) (p : Nat)
    (h : (s.position x).isSome = true) :
    Index.keys (s.set_position x p).index = Index.keys s.index ∧
      Index.keys (s.set_position x p).fdindex = Index.keys s.fdindex := by
  cases x with
  | socket k => exact ⟨Index.keys_assign_of_found _ _ _ h, rfl⟩
  | descriptor d => exact ⟨rfl, Index.keys_assign_of_found _ _ _ h⟩

theorem reindex_keys (s : poller) (p : Nat) (s' : poller)
    (h : (s.reindex p).state = some s') :
    Index.keys s'.index = Index.keys s.index ∧ Index.keys s'.fdindex = Index.keys s.fdindex := by
  rw [reindex_eq] at h
  cases hi : s.items[p]? with
  | none => simp [hi, Outcome.state] at h
  | some item =>
    simp only [hi] at h
    cases hf : s.position item.ident with
    | none =>
      simp only [hf, Outcome.state, Option.some.injEq] at h
      rw [h]
      exact ⟨rfl, rfl⟩
    | some v =>
      simp only [hf, Outcome.state, Option.some.injEq] at h
      rw [← h]
      exact s.keys_set_position_found _ p (by rw [hf]; rfl)

theorem erase_position_of_absent (s : poller) (x : identity) (h : s.position x = none) :
    s.erase_position x = s := by
  cases x with
  | socket k =>
    have hk : Index.find s.index k = none := h
    simp [erase_position, Index.erase_of_find_none _ _ hk]
  | descriptor d =>
    have hd : Index.find s.fdindex d = none := h
    simp [erase_position, Index.erase_of_find_none _ _ hd]

/-- Whatever state `remove(x)` leaves, its key lists are those of the indices
with `x` erased. -/
theorem remove_keys (s : poller) (x : identity) (s' : poller)
    (h : (s.remove x).state = some s') :
    Index.keys s'.index = Index.keys (s.erase_position x).index ∧
      Index.keys s'.fdindex = Index.keys (s.erase_position x).fdindex := by
  rw [remove_eq] at h
  cases hp : s.position x with
  | none =>
    simp only [hp, Outcome.state, Option.some.injEq] at h
    rw [← h, s.erase_position_of_absent x hp]
    exact ⟨rfl, rfl⟩
  | some found =>
    simp only [hp] at h
    cases hl : s.items.getLast? with
    | none => simp [hl, Outcome.state] at h
    | some back =>
      simp only [hl] at h
      by_cases h1 : s.items.length - 1 = found
      · rw [if_pos h1] at h
        simp only [Outcome.state, Option.some.injEq] at h
        rw [← h]
        exact ⟨rfl, rfl⟩
      · rw [if_neg h1] at h
        by_cases h2 : found < s.items.length
        · rw [if_pos h2] at h
          have hk := reindex_keys _ _ _ h
          exact hk
        · rw [if_neg h2] at h
          simp [Outcome.state] at h

/-- The call `remove(x)` has defined behaviour when the position recorded for
`x`, if any, lies inside the store. -/
theorem remove_defined (s : poller) (x : identity)
    (h : ∀ p, s.position x = some p → p < s.items.length) :
    ∃ s', (s.remove x).state = some s' := by
  cases hp : s.position x with
  | none =>
    refine ⟨s, ?_⟩
    rw [remove_eq, hp]
    rfl
  | some p =>
    obtain ⟨_, s', _, hst, _⟩ := s.remove_state x p hp (h p hp)
    exact ⟨s', hst⟩

end poller

theorem index_sound_of_exec (cs : List call) (hv : ∀ c ∈ cs, c.subject.valid) (s : poller)
    (h : exec cs poller.empty = some s) : s.index_sound := by
  obtain ⟨s', hs', ht⟩ := traced_exec cs hv _ poller.traced_empty
  rw [h] at hs'
  cases hs'
  exact s.traced_index_sound ht

theorem run_socket_adds (cs : List call) (hc : ∀ c ∈ cs, ∃ h e, c = call.add (.socket h) e)
    (s : poller) : ∃ s', run cs s = some s' ∧ s'.fdindex = s.fdindex := by
  induction cs generalizing s with
  | nil => exact ⟨s, rfl, rfl⟩
  | cons c cs ih =>
    obtain ⟨h, e, hce⟩ := hc c (List.mem_cons_self _ _)
    subst hce
    obtain ⟨s', hs', hfd⟩ := ih (fun c' hc' => hc c' (List.mem_cons_of_mem _ hc'))
      { s with items := s.items ++ [⟨h, 0, e, 0⟩], index := Index.assign s.index h s.items.length }
    exact ⟨s', hs', hfd⟩

end zmqpp

/-! ## The claims -/

namespace zmqpp

/-- C1 (index soundness, P1/I4). For every sequence of calls whose socket
handles are all non-null (descriptors are arbitrary, repeated registrations are
allowed, and a call that throws is followed by the next call on the state it
left), the poller started empty is, after each call of the sequence, in a state
where every key of the handle index maps to a position inside the store whose
entry has that handle in its socket field, and every key of the descriptor
index maps to a position inside the store whose entry has a null socket field
and that descriptor in its fd field. No call runs into an out-of-range access. -/
theorem index_sound_after_each_call (cs : List call)
    (hv : ∀ c ∈ cs, c.subject.valid) (n : Nat) :
    ∃ s, exec (cs.take n) poller.empty = some s ∧
      (∀ h p, Index.find s.index h = some p →
        p < s.items.length ∧ ∃ item, s.items[p]? = some item ∧ item.socket = h) ∧
      (∀ d p, Index.find s.fdindex d = some p →
        p < s.items.length ∧
          ∃ item, s.items[p]? = some item ∧ item.socket = 0 ∧ item.fd = d) := by
  obtain ⟨s, hs, ht⟩ :=
    traced_exec (cs.take n) (fun c hc => hv c (List.mem_of_mem_take hc)) _ poller.traced_empty
  exact ⟨s, hs, s.traced_index_sound ht⟩

/-- Witness of C1: two registrations of socket 5 around a descriptor, then removals. -/
theorem index_sound_after_each_call_witness :
    (∀ c ∈ [call.add (.socket 5) 1, call.add (.descriptor 3) 1, call.add (.socket 5) 2,
        call.remove (.descriptor 3), call.remove (.socket 5)], c.subject.valid) ∧
    ∃ s, exec (List.take 4 [call.add (.socket 5) 1, call.add (.descriptor 3) 1,
        call.add (.socket 5) 2, call.remove (.descriptor 3), call.remove (.socket 5)])
        poller.empty = some s ∧
      (∀ h p, Index.find s.index h = some p →
        p < s.items.length ∧ ∃ item, s.items[p]? = some item ∧ item.socket = h) ∧
      (∀ d p, Index.find s.fdindex d = some p →
        p < s.items.length ∧
          ∃ item, s.items[p]? = some item ∧ item.socket = 0 ∧ item.fd = d) :=
  ⟨by decide, index_sound_after_each_call _ (by decide) 4⟩

/-- C2, as stated, fails for a socket whose handle is null. After `add(y)` with a
non-null handle 5 and `add(z)` with a null handle, no identity was added twice
and both are registered, yet `remove(y)` throws "unable to reindex file
descriptor in poller": the moved entry has a null socket field and `reindex`
looks for its fd, 0, in the descriptor index. -/
theorem remove_other_null_handle_counterexample :
    fresh_adds [call.add (.socket 5) 1, call.add (.socket 0) 1] poller.empty = true ∧
    exec [call.add (.socket 5) 1, call.add (.socket 0) 1] poller.empty =
      some { items := [⟨5, 0, 1, 0⟩, ⟨0, 0, 1, 0⟩], index := [(5, 0), (0, 1)], fdindex := [] } ∧
    poller.has { items := [⟨5, 0, 1, 0⟩, ⟨0, 0, 1, 0⟩], index := [(5, 0), (0, 1)], fdindex := [] }
      (.socket 5) = true ∧
    poller.has { items := [⟨5, 0, 1, 0⟩, ⟨0, 0, 1, 0⟩], index := [(5, 0), (0, 1)], fdindex := [] }
      (.socket 0) = true ∧
    poller.remove
      { items := [⟨5, 0, 1, 0⟩, ⟨0, 0, 1, 0⟩], index := [(5, 0), (0, 1)], fdindex := [] }
      (.socket 5) =
      .thrown .unable_to_reindex_descriptor
        { items := [⟨0, 0, 1, 0⟩], index := [(0, 1)], fdindex := [] } := by
  refine ⟨rfl, rfl, rfl, rfl, rfl⟩

/-- C2 as amended (removal does not corrupt other identities, P2). In every state
reached from the empty poller by add, remove and check_for calls whose socket
handles are all non-null and in which no identity is added while registered,
for every registered `X` and every registered `Y ≠ X` of either kind,
`remove(X)` returns normally, and afterwards `has(Y)` is true and `Y` resolves
to an entry with identity `Y` whose requested and observed event masks are
those of the entry `Y` resolved to before. -/
theorem remove_preserves_others (cs : List call) (hv : ∀ c ∈ cs, c.subject.valid)
    (hf : fresh_adds cs poller.empty = true) (s : poller)
    (hs : exec cs poller.empty = some s) (X Y : identity)
    (hX : s.has X = true) (hY : s.has Y = true) (hXY : Y ≠ X) :
    ∃ s', s.remove X = .ok () s' ∧ s'.has Y = true ∧
      ∃ before after, s.resolve Y = some before ∧ s'.resolve Y = some after ∧
        after.has_identity Y ∧ after.events = before.events ∧
        after.revents = before.revents := by
  obtain ⟨s0, hs0, hg⟩ := good_exec cs hv _ poller.good_empty hf
  rw [hs] at hs0
  cases hs0
  obtain ⟨s', hrem, _⟩ := s.good_remove hg X
  have hst : (s.remove X).state = some s' := by rw [hrem]; rfl
  obtain ⟨hhas, item, h1, h2, hid⟩ := s.resolve_remove hg X Y s' hX hY hXY hst
  refine ⟨s', hrem, hhas, item, item, h1, h2, ?_, rfl, rfl⟩
  have := ident_has_identity item
  rw [hid] at this
  exact this

/-- Witness of C2: a descriptor and two sockets, the first socket removed. -/
theorem remove_preserves_others_witness :
    ∃ s', poller.remove
        { items := [⟨0, 3, 1, 0⟩, ⟨5, 0, 1, 0⟩, ⟨7, 0, 2, 0⟩],
          index := [(5, 1), (7, 2)], fdindex := [(3, 0)] } (.socket 5) = .ok () s' ∧
      s'.has (.descriptor 3) = true ∧
      ∃ before after,
        poller.resolve
          { items := [⟨0, 3, 1, 0⟩, ⟨5, 0, 1, 0⟩, ⟨7, 0, 2, 0⟩],
            index := [(5, 1), (7, 2)], fdindex := [(3, 0)] } (.descriptor 3) = some before ∧
        s'.resolve (.descriptor 3) = some after ∧
        after.has_identity (.descriptor 3) ∧ after.events = before.events ∧
        after.revents = before.revents :=
  remove_preserves_others
    [call.add (.descriptor 3) 1, call.add (.socket 5) 1, call.add (.socket 7) 2]
    (by decide) rfl _ rfl (.socket 5) (.descriptor 3) rfl rfl (by decide)

/-- C3, as stated, fails for a socket whose handle is null. After the single call
`add(z)` with a null handle, position 0 is the value of the key 0 of the handle
index although the entry there has a null socket field, and the key of its
identity payload (descriptor 0) is in no index. -/
theorem I1_null_handle_counterexample :
    fresh_adds [call.add (.socket 0) 1] poller.empty = true ∧
    exec [call.add (.socket 0) 1] poller.empty =
      some { items := [⟨0, 0, 1, 0⟩], index := [(0, 0)], fdindex := [] } ∧
    Index.find [((0 : Nat), 0)] 0 = some 0 ∧
    ¬ poller.I1 { items := [⟨0, 0, 1, 0⟩], index := [(0, 0)], fdindex := [] } := by
  refine ⟨rfl, rfl, rfl, ?_⟩
  intro h
  have := (h 0 ⟨0, 0, 1, 0⟩ rfl).1
  simp [zmq_pollitem_t.ident, poller.position, Index.find] at this

/-- C3 as amended (invariant I1, every entry is indexed exactly once). For every
sequence of add, remove and check_for calls on an empty poller whose socket
handles are all non-null and in which no identity is added while registered,
after each call every store position `p` is the value of exactly one key taken
over both indices, namely the identity payload of the entry at `p` (a key of
the handle index iff the socket field is non-null), and the store has as many
entries as the two indices have keys. -/
theorem I1_after_each_call (cs : List call) (hv : ∀ c ∈ cs, c.subject.valid)
    (hf : fresh_adds cs poller.empty = true) (n : Nat) :
    ∃ s, exec (cs.take n) poller.empty = some s ∧
      (∀ p item, s.items[p]? = some item →
        s.position item.ident = some p ∧ ∀ x, s.position x = some p → x = item.ident) ∧
      s.items.length = Index.size s.index + Index.size s.fdindex := by
  obtain ⟨s, hs, hg⟩ :=
    good_exec (cs.take n) (fun c hc => hv c (List.mem_of_mem_take hc)) _ poller.good_empty
      (fresh_adds_take cs _ n hf)
  exact ⟨s, hs, good_I1 s hg, hg.2.2⟩

/-- Witness of C3: registrations, a removal from the middle, a new registration. -/
theorem I1_after_each_call_witness :
    ∃ s, exec (List.take 4 [call.add (.descriptor 3) 1, call.add (.socket 5) 1,
        call.add (.socket 7) 2, call.remove (.descriptor 3), call.add (.descriptor 3) 4])
        poller.empty = some s ∧
      (∀ p item, s.items[p]? = some item →
        s.position item.ident = some p ∧ ∀ x, s.position x = some p → x = item.ident) ∧
      s.items.length = Index.size s.index + Index.size s.fdindex :=
  I1_after_each_call
    [call.add (.descriptor 3) 1, call.add (.socket 5) 1, call.add (.socket 7) 2,
      call.remove (.descriptor 3), call.add (.descriptor 3) 4]
    (by decide) rfl 4

/-- C4 (registered/unregistered state machine). For every sequence of add, remove
and check_for calls applied to an empty poller in which every call returns
normally, and for every identity `x`: `has(x)` after the sequence is true iff
the sequence contains an `add(x, e)` with no `remove(x)` after it; in the state
reached, `add(x, e)` returns normally with `has(x)` true, a `remove(x)` that
returns normally leaves `has(x)` false, and a call on another identity that
returns normally leaves `has(x)` unchanged. -/
theorem has_iff_added_not_removed (cs : List call) (s : poller)
    (h : run cs poller.empty = some s) (x : identity) :
    (s.has x = true ↔
      ∃ pre e post, cs = pre ++ call.add x e :: post ∧ call.remove x ∉ post) ∧
    (∀ e, ∃ s', s.add x e = .ok () s' ∧ s'.has x = true) ∧
    (∀ s', s.remove x = .ok () s' → s'.has x = false) ∧
    (∀ (c : call) s', c.subject ≠ x → c.perform s = .ok () s' → s'.has x = s.has x) := by
  refine ⟨?_, ?_, ?_, ?_⟩
  · rw [has_run cs _ s h x]
    have : poller.empty.has x = false := by cases x <;> rfl
    simp [this]
  · intro e
    refine ⟨_, s.add_eq x e, ?_⟩
    rw [poller.has_with_items, poller.has_set_position]
    simp
  · intro s' hr
    have hst : (s.remove x).state = some s' := by rw [hr]; rfl
    rw [s.remove_has x s' hst x]
    simp
  · intro c s' hne hr
    have hst : (c.perform s).state = some s' := by rw [hr]; rfl
    exact perform_has_other c s s' hst x hne

/-- Witness of C4: socket 5 is added, removed and added again; it is registered. -/
theorem has_iff_added_not_removed_witness :
    poller.has
      { items := [⟨0, 3, 1, 0⟩, ⟨5, 0, 2, 0⟩], index := [(5, 1)], fdindex := [(3, 0)] }
      (.socket 5) = true ↔
    ∃ pre e post,
      [call.add (.socket 5) 1, call.add (.descriptor 3) 1, call.remove (.socket 5),
        call.add (.socket 5) 2] = pre ++ call.add (.socket 5) e :: post ∧
      call.remove (.socket 5) ∉ post :=
  (has_iff_added_not_removed
    [call.add (.socket 5) 1, call.add (.descriptor 3) 1, call.remove (.socket 5),
      call.add (.socket 5) 2] _ rfl (.socket 5)).1

/-- C5 (removal of an unregistered identity is a no-op, P3). For every poller
state and every identity `x`, socket or descriptor, with `has(x)` false,
`remove(x)` returns normally and leaves the entry store and both indices
exactly as they were; on the empty poller this holds for every identity. -/
theorem remove_unregistered_noop (s : poller) (x : identity) (h : s.has x = false) :
    s.remove x = .ok () s ∧ poller.empty.remove x = .ok () poller.empty := by
  have key : ∀ s' : poller, s'.has x = false → s'.remove x = .ok () s' := by
    intro s' h'
    rw [poller.has_eq] at h'
    rw [poller.remove_eq]
    cases hp : s'.position x with
    | none => rfl
    | some p => rw [hp] at h'; cases h'
  exact ⟨key s h, key _ (by cases x <;> rfl)⟩

/-- Witness of C5: descriptor 4 is not registered in a poller holding socket 5. -/
theorem remove_unregistered_noop_witness :
    poller.remove { items := [⟨5, 0, 1, 0⟩], index := [(5, 0)], fdindex := [] } (.descriptor 4)
      = .ok () { items := [⟨5, 0, 1, 0⟩], index := [(5, 0)], fdindex := [] } ∧
    poller.empty.remove (.descriptor 4) = .ok () poller.empty :=
  remove_unregistered_noop
    { items := [⟨5, 0, 1, 0⟩], index := [(5, 0)], fdindex := [] } (.descriptor 4) rfl

/-- C6 (add is append-only, with its full postcondition). For every state with
store length `n`, every identity `x` and every event mask `e`, `add(x, e)`
returns normally; the new store is the old store followed by one entry with
identity `x`, requested events `e` and observed events 0, so that `events(x)`
returns 0 right afterwards; the matching index is the old one updated with
`x ↦ n` and every other lookup is unchanged, the other index is untouched, and
every previously stored entry keeps its position and contents. -/
theorem add_appends (s : poller) (x : identity) (e : Int) :
    ∃ s', s.add x e = .ok () s' ∧
      (∃ item, s'.items = s.items ++ [item] ∧ item.has_identity x ∧
        item.events = e ∧ item.revents = 0) ∧
      s'.events x = .ok 0 s' ∧
      (∀ y, s'.position y = if y = x then some s.items.length else s.position y) ∧
      (match x with
        | .socket _ => s'.fdindex = s.fdindex
        | .descriptor _ => s'.index = s.index) ∧
      (∀ p, p < s.items.length → s'.items[p]? = s.items[p]?) := by
  refine ⟨_, s.add_eq x e, ⟨x.item e, rfl, ?_, ?_, ?_⟩, ?_, ?_, ?_, ?_⟩
  · cases x <;> simp [identity.item, zmq_pollitem_t.has_identity]
  · cases x <;> rfl
  · cases x <;> rfl
  · rw [poller.events_eq, poller.position_with_items, poller.position_set_position, if_pos rfl]
    simp only [poller.get_revents, poller.items_with_items]
    rw [List.getElem?_append_right (le_refl _)]
    simp only [Nat.sub_self, List.getElem?_cons_zero]
    cases x <;> rfl
  · intro y
    rw [poller.position_with_items, poller.position_set_position]
  · cases x <;> rfl
  · intro p hp
    rw [poller.items_with_items, List.getElem?_append_left hp]

/-- Witness of C6: descriptor 3 is added to a poller holding socket 5. -/
theorem add_appends_witness :
    ∃ s', poller.add { items := [⟨5, 0, 1, 0⟩], index := [(5, 0)], fdindex := [] }
        (.descriptor 3) 2 = .ok () s' ∧
      (∃ item, s'.items = [⟨5, 0, 1, 0⟩] ++ [item] ∧ item.has_identity (.descriptor 3) ∧
        item.events = 2 ∧ item.revents = 0) ∧
      s'.events (.descriptor 3) = .ok 0 s' ∧
      (∀ y, s'.position y =
        if y = .descriptor 3 then some 1
        else poller.position { items := [⟨5, 0, 1, 0⟩], index := [(5, 0)], fdindex := [] } y) ∧
      s'.index = [(5, 0)] ∧
      (∀ p, p < 1 → s'.items[p]? = [(⟨5, 0, 1, 0⟩ : zmq_pollitem_t)][p]?) :=
  add_appends { items := [⟨5, 0, 1, 0⟩], index := [(5, 0)], fdindex := [] } (.descriptor 3) 2

/-- C7 (usage errors are raised exactly for unregistered identities, atomically).
For every state satisfying index soundness and every identity `x`:
`check_for(x, e)` throws the not-represented error iff `has(x)` is false, and so
does `events(x)`; whenever either throws, the error is the not-represented one
and the state is exactly the one before the call; `events(x)` leaves the state
unchanged when it returns too; and when `has(x)` is true both return
normally. -/
theorem usage_errors (s : poller) (hs : s.index_sound) (x : identity) (e : Int) :
    ((∃ err s', s.check_for x e = .thrown err s' ∧ err.not_represented = true) ↔
      s.has x = false) ∧
    ((∃ err s', s.events x = .thrown err s' ∧ err.not_represented = true) ↔
      s.has x = false) ∧
    (∀ err s', s.check_for x e = .thrown err s' → err.not_represented = true ∧ s' = s) ∧
    (∀ err s', s.events x = .thrown err s' → err.not_represented = true ∧ s' = s) ∧
    (∀ v s', s.events x = .ok v s' → s' = s) ∧
    (s.has x = true → (∃ s', s.check_for x e = .ok () s') ∧ ∃ v, s.events x = .ok v s) := by
  rw [poller.has_eq, poller.check_for_eq, poller.events_eq]
  cases hp : s.position x with
  | none =>
    refine ⟨?_, ?_, ?_, ?_, ?_, ?_⟩
    · simp [error.not_represented]
    · cases x <;> simp [identity.events_error, error.not_represented]
    · intro err s' h
      cases h
      exact ⟨rfl, rfl⟩
    · intro err s' h
      cases h
      exact ⟨by cases x <;> rfl, rfl⟩
    · intro v s' h
      cases h
    · intro h
      cases h
  | some p =>
    obtain ⟨_, item, hi⟩ := s.index_sound_lookup hs x p hp
    have hc : s.set_events p e = .ok () (s.with_items (s.items.set p { item with events := e })) :=
      s.set_events_eq p e item hi
    have he : s.get_revents p = .ok item.revents s := by
      simp [poller.get_revents, hi]
    simp only [hc, he]
    refine ⟨?_, ?_, ?_, ?_, ?_, ?_⟩
    · simp
    · simp
    · intro err s' h
      cases h
    · intro err s' h
      cases h
    · intro v s' h
      cases h
      rfl
    · intro _
      exact ⟨⟨_, rfl⟩, _, rfl⟩

/-- Witness of C7: in the state after `add(5)`, socket 5 is registered and
descriptor 3 is not. -/
theorem usage_errors_witness :
    ((∃ err s', poller.check_for
          { items := [⟨5, 0, 1, 0⟩], index := [(5, 0)], fdindex := [] } (.descriptor 3) 2
          = .thrown err s' ∧ err.not_represented = true) ↔
      poller.has { items := [⟨5, 0, 1, 0⟩], index := [(5, 0)], fdindex := [] }
        (.descriptor 3) = false) :=
  (usage_errors { items := [⟨5, 0, 1, 0⟩], index := [(5, 0)], fdindex := [] }
    (index_sound_of_exec [call.add (.socket 5) 1] (by decide) _ rfl) (.descriptor 3) 2).1

/-- C8 (check_for changes only the requested-events mask of the matching entry).
For every state satisfying index soundness and every identity `x` registered at
position `p`, `check_for(x, e)` returns normally; the entry at `p` gets
requested events `e` and keeps its socket field, fd field and observed events;
every other position of the store, the store length and both index maps are
unchanged, so every identity keeps its position. -/
theorem check_for_frame (s : poller) (hs : s.index_sound) (x : identity) (p : Nat)
    (hp : s.position x = some p) (e : Int) :
    ∃ s', s.check_for x e = .ok () s' ∧
      s'.index = s.index ∧ s'.fdindex = s.fdindex ∧
      s'.items.length = s.items.length ∧
      (∀ q, q ≠ p → s'.items[q]? = s.items[q]?) ∧
      (∀ y, s'.position y = s.position y) ∧
      ∃ before after, s.items[p]? = some before ∧ s'.items[p]? = some after ∧
        after.events = e ∧ after.socket = before.socket ∧ after.fd = before.fd ∧
        after.revents = before.revents := by
  obtain ⟨hlt, item, hi⟩ := s.index_sound_lookup hs x p hp
  refine ⟨s.with_items (s.items.set p { item with events := e }), ?_, rfl, rfl, ?_, ?_, ?_, ?_⟩
  · rw [poller.check_for_eq, hp]
    exact s.set_events_eq p e item hi
  · rw [poller.items_with_items, List.length_set]
  · intro q hq
    rw [poller.items_with_items, List.getElem?_set_ne (fun h => hq h.symm)]
  · intro y
    rw [poller.position_with_items]
  · refine ⟨item, { item with events := e }, hi, ?_, rfl, rfl, rfl, rfl⟩
    rw [poller.items_with_items, List.getElem?_set]
    simp [hlt]

/-- Witness of C8: the mask of socket 7, at position 1, is changed to 3. -/
theorem check_for_frame_witness :
    ∃ s', poller.check_for
        { items := [⟨5, 0, 1, 0⟩, ⟨7, 0, 1, 0⟩], index := [(5, 0), (7, 1)], fdindex := [] }
        (.socket 7) 3 = .ok () s' ∧
      s'.index = [(5, 0), (7, 1)] ∧ s'.fdindex = [] ∧
      s'.items.length = 2 ∧
      (∀ q, q ≠ 1 → s'.items[q]? = [(⟨5, 0, 1, 0⟩ : zmq_pollitem_t), ⟨7, 0, 1, 0⟩][q]?) ∧
      (∀ y, s'.position y = poller.position
        { items := [⟨5, 0, 1, 0⟩, ⟨7, 0, 1, 0⟩], index := [(5, 0), (7, 1)], fdindex := [] } y) ∧
      ∃ before after,
        [(⟨5, 0, 1, 0⟩ : zmq_pollitem_t), ⟨7, 0, 1, 0⟩][1]? = some before ∧
        s'.items[1]? = some after ∧
        after.events = 3 ∧ after.socket = before.socket ∧ after.fd = before.fd ∧
        after.revents = before.revents :=
  check_for_frame
    { items := [⟨5, 0, 1, 0⟩, ⟨7, 0, 1, 0⟩], index := [(5, 0), (7, 1)], fdindex := [] }
    (index_sound_of_exec [call.add (.socket 5) 1, call.add (.socket 7) 1] (by decide) _ rfl)
    (.socket 7) 1 rfl 3

/-- C9, as stated for every state, fails where `remove` is undefined. The six
calls below all return normally (one of them registers a socket whose handle is
null) and leave the non-null handle 9 recorded at position 2 of a store of
length 2; `remove` of that handle then evaluates `_items[2]`, out of range, so
the call leaves no state of which anything could be said. -/
theorem remove_out_of_range_counterexample :
    run [call.add (.descriptor 0) 1, call.add (.socket 7) 1, call.add (.socket 0) 1,
        call.remove (.socket 7), call.add (.socket 9) 1, call.remove (.socket 0)]
        poller.empty =
      some { items := [⟨0, 0, 1, 0⟩, ⟨0, 0, 1, 0⟩], index := [(9, 2)], fdindex := [(0, 1)] } ∧
    poller.remove_socket
      { items := [⟨0, 0, 1, 0⟩, ⟨0, 0, 1, 0⟩], index := [(9, 2)], fdindex := [(0, 1)] } 9 =
      .undefined := by
  refine ⟨rfl, rfl⟩

/-- C9 as amended (disjointness of the two identity kinds, P4). For every state,
every socket handle `h` (null or not), every descriptor `d` and `d'`, every
handle `h'`: `add(h, e)` leaves `has(d')` and the key list of the descriptor
index unchanged, and so does `remove(h)` whenever the position recorded for
`h`, if any, lies inside the store (the call then returns or throws, and in
both cases the state it leaves is meant); symmetrically `add(d, e)` and
`remove(d)` leave `has(h')` and the key list of the handle index unchanged; and
after registering only sockets on an empty poller `has(d')` is false for every
descriptor, 0 included. -/
theorem kinds_disjoint (s : poller) (h : Nat) (d : Int) (e : Int) (h' : Nat) (d' : Int) :
    (∃ s', s.add_socket h e = .ok () s' ∧
      s'.has_descriptor d' = s.has_descriptor d' ∧
      Index.keys s'.fdindex = Index.keys s.fdindex) ∧
    ((∀ p, Index.find s.index h = some p → p < s.items.length) →
      ∃ s', (s.remove_socket h).state = some s' ∧
        s'.has_descriptor d' = s.has_descriptor d' ∧
        Index.keys s'.fdindex = Index.keys s.fdindex) ∧
    (∃ s', s.add_descriptor d e = .ok () s' ∧
      s'.has_socket h' = s.has_socket h' ∧
      Index.keys s'.index = Index.keys s.index) ∧
    ((∀ p, Index.find s.fdindex d = some p → p < s.items.length) →
      ∃ s', (s.remove_descriptor d).state = some s' ∧
        s'.has_socket h' = s.has_socket h' ∧
        Index.keys s'.index = Index.keys s.index) ∧
    (∀ cs : List call, (∀ c ∈ cs, ∃ k m, c = call.add (.socket k) m) →
      ∃ s', run cs poller.empty = some s' ∧ s'.has_descriptor d' = false ∧
        s'.has_descriptor 0 = false) := by
  refine ⟨⟨_, rfl, rfl, rfl⟩, ?_, ⟨_, rfl, rfl, rfl⟩, ?_, ?_⟩
  · intro hr
    obtain ⟨s', hs'⟩ := s.remove_defined (.socket h) hr
    refine ⟨s', hs', ?_, (s.remove_keys (.socket h) s' hs').2⟩
    have := s.remove_has (.socket h) s' hs' (.descriptor d')
    simpa [poller.has] using this
  · intro hr
    obtain ⟨s', hs'⟩ := s.remove_defined (.descriptor d) hr
    refine ⟨s', hs', ?_, (s.remove_keys (.descriptor d) s' hs').1⟩
    have := s.remove_has (.descriptor d) s' hs' (.socket h')
    simpa [poller.has] using this
  · intro cs hcs
    obtain ⟨s', hs', hfd⟩ := run_socket_adds cs hcs poller.empty
    refine ⟨s', hs', ?_, ?_⟩
    · unfold poller.has_descriptor
      rw [hfd]
      rfl
    · unfold poller.has_descriptor
      rw [hfd]
      rfl

/-- Witness of C9: socket 5 is removed from a poller that also holds descriptor 0;
its recorded position 0 lies inside the store. -/
theorem kinds_disjoint_witness :
    (∀ p, Index.find [((5 : Nat), 0)] 5 = some p → p < 2) ∧
    ∃ s', (poller.remove_socket
        { items := [⟨5, 0, 1, 0⟩, ⟨0, 0, 1, 0⟩], index := [(5, 0)], fdindex := [(0, 1)] } 5).state
        = some s' ∧
      s'.has_descriptor 0 = true ∧ Index.keys s'.fdindex = [0] :=
  ⟨by intro p hp; cases hp; decide,
    (kinds_disjoint
      { items := [⟨5, 0, 1, 0⟩, ⟨0, 0, 1, 0⟩], index := [(5, 0)], fdindex := [(0, 1)] }
      5 0 1 5 0).2.1 (by intro p hp; cases hp; decide)⟩

/-- C10 (interruption masking in wait, P6). With the native batched wait taken as
an arbitrary function that yields a result, an error code and the written item
array, for every poller state and every timeout: `poll(timeout)` throws iff the
native result is negative and the error code is not `EINTR`; when the native
result is negative with error code `EINTR`, `poll` returns false and throws
nothing. -/
theorem poll_interruption (zmq_poll : List zmq_pollitem_t → Nat → Int → poller.native_result)
    (s : poller) (timeout : Int) :
    ((∃ err s', s.poll zmq_poll timeout = .thrown err s') ↔
      ((zmq_poll s.items s.items.length timeout).result < 0 ∧
        (zmq_poll s.items s.items.length timeout).errno ≠ poller.EINTR)) ∧
    ((zmq_poll s.items s.items.length timeout).result < 0 →
      (zmq_poll s.items s.items.length timeout).errno = poller.EINTR →
      ∃ s', s.poll zmq_poll timeout = .ok false s') := by
  have hpoll : s.poll zmq_poll timeout =
      (if (zmq_poll s.items s.items.length timeout).result < 0 then
        if poller.EINTR = (zmq_poll s.items s.items.length timeout).errno then
          .ok false { s with items := (zmq_poll s.items s.items.length timeout).items }
        else .thrown .zmq_internal_exception
          { s with items := (zmq_poll s.items s.items.length timeout).items }
      else .ok (decide ((zmq_poll s.items s.items.length timeout).result > 0))
        { s with items := (zmq_poll s.items s.items.length timeout).items }) := rfl
  rw [hpoll]
  by_cases hneg : (zmq_poll s.items s.items.length timeout).result < 0
  · rw [if_pos hneg]
    by_cases herr : poller.EINTR = (zmq_poll s.items s.items.length timeout).errno
    · rw [if_pos herr]
      refine ⟨⟨?_, ?_⟩, fun _ _ => ⟨_, rfl⟩⟩
      · rintro ⟨err, s', h⟩
        cases h
      · rintro ⟨_, h⟩
        exact absurd herr.symm h
    · rw [if_neg herr]
      refine ⟨⟨fun _ => ⟨hneg, fun h => herr h.symm⟩, fun _ => ⟨_, _, rfl⟩⟩, ?_⟩
      intro _ h
      exact absurd h.symm herr
  · rw [if_neg hneg]
    refine ⟨⟨?_, ?_⟩, fun h => absurd h hneg⟩
    · rintro ⟨err, s', h⟩
      cases h
    · rintro ⟨h, _⟩
      exact absurd h hneg

/-- Witness of C10: the native call fails with `EINTR` on a poller holding socket 5. -/
theorem poll_interruption_witness :
    ∃ s', poller.poll (fun items _ _ => ⟨-1, 4, items⟩)
      { items := [⟨5, 0, 1, 0⟩], index := [(5, 0)], fdindex := [] } (-1) = .ok false s' :=
  (poll_interruption (fun items _ _ => ⟨-1, 4, items⟩)
    { items := [⟨5, 0, 1, 0⟩], index := [(5, 0)], fdindex := [] } (-1)).2
    (by decide) rfl

/-! ## The wait engine on success, and states satisfying I1 -/

theorem good_of_exec (cs : List call) (hv : ∀ c ∈ cs, c.subject.valid)
    (hf : fresh_adds cs poller.empty = true) (s : poller)
    (h : exec cs poller.empty = some s) : s.good := by
  obtain ⟨s', hs', hg⟩ := good_exec cs hv _ poller.good_empty hf
  rw [h] at hs'
  cases hs'
  exact hg

theorem I1_of_exec (cs : List call) (hv : ∀ c ∈ cs, c.subject.valid)
    (hf : fresh_adds cs poller.empty = true) (s : poller)
    (h : exec cs poller.empty = some s) : s.I1 :=
  good_I1 s (good_of_exec cs hv hf s h)

theorem poller.remove_undefined (s : poller) (x : identity) (p : Nat)
    (hp : s.position x = some p) (hge : ¬ p < s.items.length) : s.remove x = .undefined := by
  rw [poller.remove_eq, hp]
  cases hl : s.items.getLast? with
  | none => rfl
  | some back =>
    have hne : s.items ≠ [] := by
      intro e
      rw [e] at hl
      cases hl
    have hpos : 0 < s.items.length := List.length_pos.mpr hne
    have h1 : ¬ s.items.length - 1 = p := by omega
    simp only []
    rw [if_neg h1, if_neg hge]

theorem count_pos_iff (l : List zmq_pollitem_t) :
    (0 : Int) < ((l.filter (fun item => decide (item.revents ≠ 0))).length : Int) ↔
      ∃ item ∈ l, item.revents ≠ 0 := by
  rw [Int.natCast_pos, List.length_pos]
  constructor
  · intro h
    obtain ⟨item, hi⟩ := List.exists_mem_of_ne_nil _ h
    rw [List.mem_filter] at hi
    exact ⟨item, hi.1, by simpa using hi.2⟩
  · rintro ⟨item, hi, hr⟩ hnil
    have : item ∈ l.filter (fun item => decide (item.revents ≠ 0)) := by
      rw [List.mem_filter]
      exact ⟨hi, by simpa using hr⟩
    rw [hnil] at this
    cases this

/-- C11 (result of a successful wait). Assume the native call succeeds, writes
nothing but the observed-events field of the entries, and returns the number of
entries whose observed mask is non-zero. Then `poll(timeout)` returns normally,
and returns true iff at least one entry of the store has a non-zero observed
mask after the call (so false on an empty store); the store afterwards is the
array the native call wrote and both indices are unchanged; and the outcome
depends on the native primitive only through its one answer on the whole
store, its length and the caller's timeout. -/
theorem poll_success (zmq_poll : List zmq_pollitem_t → Nat → Int → poller.native_result)
    (s : poller) (timeout : Int)
    (hsucc : 0 ≤ (zmq_poll s.items s.items.length timeout).result)
    (hwrite : (zmq_poll s.items s.items.length timeout).items.map
        (fun item => { item with revents := 0 }) =
      s.items.map (fun item => { item with revents := 0 }))
    (hcount : (zmq_poll s.items s.items.length timeout).result =
      (((zmq_poll s.items s.items.length timeout).items.filter
        (fun item => decide (item.revents ≠ 0))).length : Int)) :
    ∃ b s', s.poll zmq_poll timeout = .ok b s' ∧
      (b = true ↔ ∃ item ∈ s'.items, item.revents ≠ 0) ∧
      (s.items = [] → b = false) ∧
      s'.items = (zmq_poll s.items s.items.length timeout).items ∧
      s'.index = s.index ∧ s'.fdindex = s.fdindex ∧
      (∀ other : List zmq_pollitem_t → Nat → Int → poller.native_result,
        other s.items s.items.length timeout = zmq_poll s.items s.items.length timeout →
        s.poll other timeout = s.poll zmq_poll timeout) := by
  have hnot : ¬ (zmq_poll s.items s.items.length timeout).result < 0 := by omega
  have hiff : (zmq_poll s.items s.items.length timeout).result > 0 ↔
      ∃ item ∈ (zmq_poll s.items s.items.length timeout).items, item.revents ≠ 0 := by
    rw [← count_pos_iff, ← hcount]
  refine ⟨decide ((zmq_poll s.items s.items.length timeout).result > 0),
    { s with items := (zmq_poll s.items s.items.length timeout).items }, ?_, ?_, ?_,
    rfl, rfl, rfl, ?_⟩
  · unfold poller.poll
    simp only []
    rw [if_neg hnot]
  · rw [decide_eq_true_iff]
    exact hiff
  · intro hempty
    have hmap : s.items.map (fun item => { item with revents := 0 }) = [] := by
      rw [hempty]
      rfl
    rw [hmap] at hwrite
    have hnil : (zmq_poll s.items s.items.length timeout).items = [] := by
      simpa using hwrite
    rw [decide_eq_false_iff_not, hiff, hnil]
    simp
  · intro other hother
    unfold poller.poll
    simp only []
    rw [hother]

/-- Witness of C11: on a store of two entries the native call marks the second
one readable and returns 1. -/
theorem poll_success_witness :
    ∃ b s', poller.poll
        (fun _ _ _ => ⟨1, 0, [⟨5, 0, 1, 0⟩, ⟨0, 3, 1, 1⟩]⟩)
        { items := [⟨5, 0, 1, 0⟩, ⟨0, 3, 1, 0⟩], index := [(5, 0)], fdindex := [(3, 1)] } 100
        = .ok b s' ∧
      (b = true ↔ ∃ item ∈ s'.items, item.revents ≠ 0) ∧
      (([⟨5, 0, 1, 0⟩, ⟨0, 3, 1, 0⟩] : List zmq_pollitem_t) = [] → b = false) ∧
      s'.items = [⟨5, 0, 1, 0⟩, ⟨0, 3, 1, 1⟩] ∧
      s'.index = [(5, 0)] ∧ s'.fdindex = [(3, 1)] ∧
      (∀ other : List zmq_pollitem_t → Nat → Int → poller.native_result,
        other [⟨5, 0, 1, 0⟩, ⟨0, 3, 1, 0⟩] 2 100 = ⟨1, 0, [⟨5, 0, 1, 0⟩, ⟨0, 3, 1, 1⟩]⟩ →
        poller.poll other
          { items := [⟨5, 0, 1, 0⟩, ⟨0, 3, 1, 0⟩], index := [(5, 0)], fdindex := [(3, 1)] } 100 =
        poller.poll (fun _ _ _ => ⟨1, 0, [⟨5, 0, 1, 0⟩, ⟨0, 3, 1, 1⟩]⟩)
          { items := [⟨5, 0, 1, 0⟩, ⟨0, 3, 1, 0⟩], index := [(5, 0)], fdindex := [(3, 1)] }
          100) :=
  poll_success (fun _ _ _ => ⟨1, 0, [⟨5, 0, 1, 0⟩, ⟨0, 3, 1, 1⟩]⟩)
    { items := [⟨5, 0, 1, 0⟩, ⟨0, 3, 1, 0⟩], index := [(5, 0)], fdindex := [(3, 1)] } 100
    (by decide) rfl rfl

/-- C12 (the reindex error signals only a broken invariant). In every state in
which invariant I1 holds, `remove(x)` throws nothing, for every identity `x`,
registered or not, last or not, of the kind of the last entry or of the other
kind: the throwing branches of `reindex` are not reached. When the position
recorded for `x`, if any, lies inside the store the call returns normally; on a
recorded position past the store the call is undefined, before `reindex` is
entered. -/
theorem reindex_error_unreachable (s : poller) (h : s.I1) (x : identity) :
    (s.remove x).raised = none ∧
    (∀ err s', err.unable_to_reindex = true → s.remove x ≠ .thrown err s') ∧
    ((∀ p, s.position x = some p → p < s.items.length) → ∃ s', s.remove x = .ok () s') := by
  have key : (s.remove x).raised = none := by
    cases hp : s.position x with
    | none =>
      rw [poller.remove_eq, hp]
      rfl
    | some p =>
      by_cases hlt : p < s.items.length
      · obtain ⟨back, s', hback, _, _, _, hraised⟩ := s.remove_state x p hp hlt
        rw [hraised]
        by_cases hpl : p = s.items.length - 1
        · exact Or.inl hpl
        · right
          have hb := (h _ back hback).1
          refine ⟨?_, by rw [hb]; rfl⟩
          intro e
          rw [e, hp] at hb
          cases hb
          exact hpl rfl
      · rw [s.remove_undefined x p hp hlt]
        rfl
  refine ⟨key, ?_, ?_⟩
  · intro err s' _ heq
    rw [heq] at key
    cases key
  · intro hr
    obtain ⟨s', hs'⟩ := s.remove_defined x hr
    exact ⟨s', Outcome.eq_ok_of_state hs' key⟩

/-- Witness of C12: a descriptor is removed from the front of a store whose last
entry is a socket. -/
theorem reindex_error_unreachable_witness :
    (poller.remove
      { items := [⟨0, 3, 1, 0⟩, ⟨5, 0, 1, 0⟩, ⟨7, 0, 2, 0⟩],
        index := [(5, 1), (7, 2)], fdindex := [(3, 0)] } (.descriptor 3)).raised = none :=
  (reindex_error_unreachable
    { items := [⟨0, 3, 1, 0⟩, ⟨5, 0, 1, 0⟩, ⟨7, 0, 2, 0⟩],
      index := [(5, 1), (7, 2)], fdindex := [(3, 0)] }
    (I1_of_exec [call.add (.descriptor 3) 1, call.add (.socket 5) 1, call.add (.socket 7) 2]
      (by decide) rfl _ rfl) (.descriptor 3)).1

/-! ## Repeated registration and the shape of a removal -/

theorem Index.erase_assign_of_absent {κ : Type} [DecidableEq κ] (m : List (κ × Nat)) (k : κ)
    (v : Nat) (h : Index.find m k = none) : Index.erase (Index.assign m k v) k = m := by
  induction m with
  | nil => simp [Index.assign, Index.erase_cons, Index.erase_nil]
  | cons kv m ih =>
    obtain ⟨a, b⟩ := kv
    by_cases hak : a = k
    · simp [Index.find, hak] at h
    · simp only [Index.find, hak, if_false] at h
      simp only [Index.assign, hak, if_false]
      rw [Index.erase_cons, if_neg hak, ih h]

theorem item_has_identity (x : identity) (e : Int) : (x.item e).has_identity x := by
  cases x <;> simp [identity.item, zmq_pollitem_t.has_identity]

theorem poller.remove_last (s : poller) (x : identity) (hpos : 0 < s.items.length)
    (hp : s.position x = some (s.items.length - 1)) :
    s.remove x = .ok () ((s.erase_position x).with_items s.items.dropLast) := by
  obtain ⟨back, _, hcases⟩ := s.remove_found x _ hp (by omega)
  rcases hcases with ⟨_, hr⟩ | ⟨hne, _⟩ | ⟨hne, _⟩
  · exact hr
  · exact absurd rfl hne
  · exact absurd rfl hne

theorem poller.I1_entry (s : poller) (h : s.I1) (x : identity) (p : Nat)
    (hp : s.position x = some p) (hlt : p < s.items.length) :
    ∃ item, s.items[p]? = some item ∧ item.ident = x := by
  refine ⟨s.items[p], List.getElem?_eq_getElem hlt, ?_⟩
  exact ((h p _ (List.getElem?_eq_getElem hlt)).2 x hp).symm

/-- C13 (re-adding a registered identity duplicates it). In every state
satisfying I1 with store length `n` in which `x` is registered at a position
`p` of the store, `add(x, e2)` returns normally with a store of length `n + 1`
holding two entries with identity `x`: the old one still at `p`, unchanged, and
the new one at `n` with requested events `e2`. The index maps `x` to `n` and no
key to `p` any more; `check_for(x, e)` writes the new entry and leaves the old
one alone, and `events(x)` reads the new entry. A subsequent `remove(x)`
returns normally, after which `has(x)` is false while the store is the old
store again, the old entry with identity `x` still at `p`. -/
theorem readd_duplicates (s : poller) (h : s.I1) (x : identity) (p : Nat)
    (hp : s.position x = some p) (hlt : p < s.items.length) (e2 : Int) :
    ∃ old fresh s1, s.items[p]? = some old ∧ old.has_identity x ∧
      s.add x e2 = .ok () s1 ∧
      s1.items.length = s.items.length + 1 ∧
      s1.items[p]? = some old ∧
      s1.items[s.items.length]? = some fresh ∧ fresh.has_identity x ∧
      fresh.events = e2 ∧ p ≠ s.items.length ∧
      s1.position x = some s.items.length ∧
      (∀ y, s1.position y ≠ some p) ∧
      (∀ e, ∃ s2, s1.check_for x e = .ok () s2 ∧ s2.items[p]? = some old ∧
        s2.items[s.items.length]? = some { fresh with events := e }) ∧
      s1.events x = .ok fresh.revents s1 ∧
      ∃ s3, s1.remove x = .ok () s3 ∧ s3.has x = false ∧ s3.items = s.items ∧
        s3.items[p]? = some old := by
  obtain ⟨old, hold, hid⟩ := s.I1_entry h x p hp hlt
  have hne : p ≠ s.items.length := by omega
  have hnew : (s.items ++ [x.item e2])[s.items.length]? = some (x.item e2) := by
    rw [List.getElem?_append_right (le_refl _)]
    simp
  have hpos1 : ∀ y, ((s.set_position x s.items.length).with_items
      (s.items ++ [x.item e2])).position y =
      if y = x then some s.items.length else s.position y := by
    intro y
    rw [poller.position_with_items, poller.position_set_position]
  refine ⟨old, x.item e2, _, hold, ?_, s.add_eq x e2, ?_, ?_, hnew, item_has_identity x e2,
    ?_, hne, ?_, ?_, ?_, ?_, ?_⟩
  · have := ident_has_identity old
    rw [hid] at this
    exact this
  · rw [poller.items_with_items, List.length_append]
    rfl
  · rw [poller.items_with_items, List.getElem?_append_left hlt]
    exact hold
  · cases x <;> rfl
  · rw [hpos1, if_pos rfl]
  · intro y hy
    rw [hpos1] at hy
    by_cases hyx : y = x
    · rw [if_pos hyx] at hy
      cases hy
      exact hne rfl
    · rw [if_neg hyx] at hy
      obtain ⟨item, hi, hid'⟩ := s.I1_entry h y p hy hlt
      rw [hold] at hi
      cases hi
      exact hyx (hid'.symm.trans hid)
  · intro e
    refine ⟨((s.set_position x s.items.length).with_items (s.items ++ [x.item e2])).with_items
      ((s.items ++ [x.item e2]).set s.items.length { x.item e2 with events := e }), ?_, ?_, ?_⟩
    · rw [poller.check_for_eq, hpos1, if_pos rfl]
      exact poller.set_events_eq _ _ e (x.item e2) hnew
    · rw [poller.items_with_items,
        List.getElem?_set_ne (fun e' => hne e'.symm), List.getElem?_append_left hlt]
      exact hold
    · rw [poller.items_with_items, List.getElem?_set]
      simp
  · rw [poller.events_eq, hpos1, if_pos rfl]
    simp only [poller.get_revents, poller.items_with_items, hnew]
  · refine ⟨(((s.set_position x s.items.length).with_items
        (s.items ++ [x.item e2])).erase_position x).with_items s.items, ?_, ?_, rfl, hold⟩
    · have hl : ((s.set_position x s.items.length).with_items
          (s.items ++ [x.item e2])).items.length - 1 = s.items.length := by
        rw [poller.items_with_items, List.length_append]
        simp
      have := poller.remove_last ((s.set_position x s.items.length).with_items
          (s.items ++ [x.item e2])) x
        (by rw [poller.items_with_items, List.length_append]; simp)
        (by rw [hl, hpos1, if_pos rfl])
      rw [this, poller.items_with_items, List.dropLast_concat]
    · rw [poller.has_with_items, poller.has_erase_position, if_pos rfl]

/-- Witness of C13: socket 5, registered at position 0 with mask 1, is added again
with mask 2. -/
theorem readd_duplicates_witness :
    ∃ old fresh s1,
      ([⟨5, 0, 1, 0⟩, ⟨0, 3, 1, 0⟩] : List zmq_pollitem_t)[0]? = some old ∧
      old.has_identity (.socket 5) ∧
      poller.add
        { items := [⟨5, 0, 1, 0⟩, ⟨0, 3, 1, 0⟩], index := [(5, 0)], fdindex := [(3, 1)] }
        (.socket 5) 2 = .ok () s1 ∧
      s1.items.length = 2 + 1 ∧
      s1.items[0]? = some old ∧
      s1.items[2]? = some fresh ∧ fresh.has_identity (.socket 5) ∧
      fresh.events = 2 ∧ 0 ≠ 2 ∧
      s1.position (.socket 5) = some 2 ∧
      (∀ y, s1.position y ≠ some 0) ∧
      (∀ e, ∃ s2, s1.check_for (.socket 5) e = .ok () s2 ∧ s2.items[0]? = some old ∧
        s2.items[2]? = some { fresh with events := e }) ∧
      s1.events (.socket 5) = .ok fresh.revents s1 ∧
      ∃ s3, s1.remove (.socket 5) = .ok () s3 ∧ s3.has (.socket 5) = false ∧
        s3.items = [⟨5, 0, 1, 0⟩, ⟨0, 3, 1, 0⟩] ∧
        s3.items[0]? = some old :=
  readd_duplicates
    { items := [⟨5, 0, 1, 0⟩, ⟨0, 3, 1, 0⟩], index := [(5, 0)], fdindex := [(3, 1)] }
    (I1_of_exec [call.add (.socket 5) 1, call.add (.descriptor 3) 1] (by decide) rfl _ rfl)
    (.socket 5) 0 rfl (by decide) 2

/-- C14 (swap-remove shape of the store). In every state satisfying I1 with store
length `n` and for every `x` registered at a position `p` of the store,
`remove(x)` returns normally with a store of length `n - 1`. If `p = n - 1` the
new store is the first `n - 1` old entries; otherwise it agrees with the old
store on every position `q < n - 1` other than `p`, holds the old last entry at
`p`, and the identity of that moved entry now maps to `p` in the index of its
own kind. The matching index loses the key `x`, and every other key keeps its
position. -/
theorem swap_remove_shape (s : poller) (h : s.I1) (x : identity) (p : Nat)
    (hp : s.position x = some p) (hlt : p < s.items.length) :
    ∃ s' back, s.remove x = .ok () s' ∧
      s.items[s.items.length - 1]? = some back ∧
      s'.items.length = s.items.length - 1 ∧
      (p = s.items.length - 1 → s'.items = s.items.take (s.items.length - 1)) ∧
      (p ≠ s.items.length - 1 →
        (∀ q, q < s.items.length - 1 → q ≠ p → s'.items[q]? = s.items[q]?) ∧
        s'.items[p]? = some back ∧ s'.position back.ident = some p) ∧
      s'.position x = none ∧
      (∀ y, y ≠ x → (p = s.items.length - 1 ∨ y ≠ back.ident) →
        s'.position y = s.position y) := by
  obtain ⟨back, hback, hcases⟩ := s.remove_found x p hp hlt
  have hb := (h _ back hback).1
  rcases hcases with ⟨hpl, hr⟩ | ⟨hpl, hthrow, _⟩ | ⟨hpl, hbx, hfound, hr⟩
  · refine ⟨_, back, hr, hback, ?_, ?_, fun hne => absurd hpl hne, ?_, ?_⟩
    · rw [poller.items_with_items, List.length_dropLast]
    · intro _
      rw [poller.items_with_items, List.dropLast_eq_take]
    · rw [poller.position_with_items, poller.position_erase_position, if_pos rfl]
    · intro y hy _
      rw [poller.position_with_items, poller.position_erase_position, if_neg hy]
  · exfalso
    rcases hthrow with e | e
    · rw [e, hp] at hb
      cases hb
      exact hpl rfl
    · rw [e] at hb
      cases hb
  · have hplt : p < s.items.length - 1 := by omega
    refine ⟨_, back, hr, hback, ?_, fun e => absurd e hpl, fun _ => ⟨?_, ?_, ?_⟩, ?_, ?_⟩
    · rw [poller.items_set_position, poller.items_with_items, List.length_dropLast,
        List.length_set]
    · intro q hq hqp
      rw [poller.items_set_position, poller.items_with_items,
        poller.swap_pop_getElem? _ _ _ hlt, if_pos hq, if_neg hqp]
    · rw [poller.items_set_position, poller.items_with_items,
        poller.swap_pop_getElem? _ _ _ hlt, if_pos hplt, if_pos rfl]
    · rw [poller.position_set_position, if_pos rfl]
    · rw [poller.position_set_position, poller.position_with_items,
        poller.position_erase_position, if_neg (fun e => hbx e.symm), if_pos rfl]
    · intro y hy hyb
      have hyb' : y ≠ back.ident := by
        rcases hyb with e | e
        · exact absurd e hpl
        · exact e
      rw [poller.position_set_position, if_neg hyb', poller.position_with_items,
        poller.position_erase_position, if_neg hy]

/-- Witness of C14: descriptor 3 at position 0 of three entries is removed, the
last entry (socket 7) moves to position 0. -/
theorem swap_remove_shape_witness :
    ∃ s' back, poller.remove
        { items := [⟨0, 3, 1, 0⟩, ⟨5, 0, 1, 0⟩, ⟨7, 0, 2, 0⟩],
          index := [(5, 1), (7, 2)], fdindex := [(3, 0)] } (.descriptor 3) = .ok () s' ∧
      ([⟨0, 3, 1, 0⟩, ⟨5, 0, 1, 0⟩, ⟨7, 0, 2, 0⟩] : List zmq_pollitem_t)[3 - 1]? = some back ∧
      s'.items.length = 3 - 1 ∧
      (0 = 3 - 1 → s'.items =
        ([⟨0, 3, 1, 0⟩, ⟨5, 0, 1, 0⟩, ⟨7, 0, 2, 0⟩] : List zmq_pollitem_t).take (3 - 1)) ∧
      (0 ≠ 3 - 1 →
        (∀ q, q < 3 - 1 → q ≠ 0 → s'.items[q]? =
          ([⟨0, 3, 1, 0⟩, ⟨5, 0, 1, 0⟩, ⟨7, 0, 2, 0⟩] : List zmq_pollitem_t)[q]?) ∧
        s'.items[0]? = some back ∧ s'.position back.ident = some 0) ∧
      s'.position (.descriptor 3) = none ∧
      (∀ y, y ≠ .descriptor 3 → (0 = 3 - 1 ∨ y ≠ back.ident) →
        s'.position y = poller.position
          { items := [⟨0, 3, 1, 0⟩, ⟨5, 0, 1, 0⟩, ⟨7, 0, 2, 0⟩],
            index := [(5, 1), (7, 2)], fdindex := [(3, 0)] } y) :=
  swap_remove_shape
    { items := [⟨0, 3, 1, 0⟩, ⟨5, 0, 1, 0⟩, ⟨7, 0, 2, 0⟩],
      index := [(5, 1), (7, 2)], fdindex := [(3, 0)] }
    (I1_of_exec [call.add (.descriptor 3) 1, call.add (.socket 5) 1, call.add (.socket 7) 2]
      (by decide) rfl _ rfl) (.descriptor 3) 0 rfl (by decide)

/-- C15 (add followed by remove is the identity on fresh identities). For every
poller state `s`, whether or not it satisfies I1, every identity `x` with
`has(x)` false in `s` and every event mask `e`: `add(x, e)` returns normally,
and `remove(x)` on the state it leaves returns normally with exactly `s`, the
same store in the same order and the same two index maps. -/
theorem add_then_remove (s : poller) (x : identity) (e : Int) (hx : s.has x = false) :
    ∃ s1, s.add x e = .ok () s1 ∧ s1.remove x = .ok () s := by
  refine ⟨_, s.add_eq x e, ?_⟩
  have hnone : s.position x = none := by
    rw [poller.has_eq] at hx
    cases hpx : s.position x with
    | none => rfl
    | some v => rw [hpx] at hx; cases hx
  have hl : ((s.set_position x s.items.length).with_items
      (s.items ++ [x.item e])).items.length - 1 = s.items.length := by
    rw [poller.items_with_items, List.length_append]
    simp
  have := poller.remove_last ((s.set_position x s.items.length).with_items
      (s.items ++ [x.item e])) x
    (by rw [poller.items_with_items, List.length_append]; simp)
    (by rw [hl, poller.position_with_items, poller.position_set_position, if_pos rfl])
  rw [this, poller.items_with_items, List.dropLast_concat]
  cases x with
  | socket k =>
    have hk : Index.find s.index k = none := hnone
    simp [poller.with_items, poller.erase_position, poller.set_position,
      Index.erase_assign_of_absent _ _ _ hk]
  | descriptor d =>
    have hd : Index.find s.fdindex d = none := hnone
    simp [poller.with_items, poller.erase_position, poller.set_position,
      Index.erase_assign_of_absent _ _ _ hd]

/-- Witness of C15: socket 7 is added to and removed from a state that violates
I1 (its only key points past the store). -/
theorem add_then_remove_witness :
    ∃ s1, poller.add { items := [⟨5, 0, 1, 0⟩], index := [(9, 4)], fdindex := [] }
        (.socket 7) 3 = .ok () s1 ∧
      s1.remove (.socket 7) =
        .ok () { items := [⟨5, 0, 1, 0⟩], index := [(9, 4)], fdindex := [] } :=
  add_then_remove { items := [⟨5, 0, 1, 0⟩], index := [(9, 4)], fdindex := [] }
    (.socket 7) 3 rfl

/-! ## Behaviour under a repeated registration -/

/-- C16 (ordinary caller input can trigger the internal-consistency error). For
socket handles `x ≠ y` with `x` non-null, the calls add(y), add(x), add(x),
remove(y) on an empty poller all return normally, and the final remove(x)
throws "unable to reindex socket in poller", leaving a store from which one
entry was popped and a handle index from which `x` was erased. -/
theorem duplicate_triggers_reindex_error (x y : Nat) (hxy : x ≠ y) (hx : x ≠ 0)
    (e1 e2 e3 : Int) :
    run [call.add (.socket y) e1, call.add (.socket x) e2, call.add (.socket x) e3,
        call.remove (.socket y)] poller.empty =
      some { items := [⟨x, 0, e3, 0⟩, ⟨x, 0, e2, 0⟩], index := [(x, 0)], fdindex := [] } ∧
    poller.remove { items := [⟨x, 0, e3, 0⟩, ⟨x, 0, e2, 0⟩], index := [(x, 0)], fdindex := [] }
      (.socket x) =
      .thrown .unable_to_reindex_socket
        { items := [⟨x, 0, e2, 0⟩], index := [], fdindex := [] } := by
  have hyx : y ≠ x := fun e => hxy e.symm
  constructor
  · simp [run, call.perform, poller.add, poller.add_socket, poller.remove, poller.remove_socket,
      poller.reindex, Index.find, Index.assign, Index.erase_cons, Index.erase_nil,
      poller.empty, hxy, hyx, hx]
  · simp [poller.remove, poller.remove_socket, poller.reindex, Index.find, Index.assign,
      Index.erase_cons, Index.erase_nil, hx]

/-- Witness of C16: handles 5 and 7. -/
theorem duplicate_triggers_reindex_error_witness :
    run [call.add (.socket 7) 1, call.add (.socket 5) 1, call.add (.socket 5) 2,
        call.remove (.socket 7)] poller.empty =
      some { items := [⟨5, 0, 2, 0⟩, ⟨5, 0, 1, 0⟩], index := [(5, 0)], fdindex := [] } ∧
    poller.remove { items := [⟨5, 0, 2, 0⟩, ⟨5, 0, 1, 0⟩], index := [(5, 0)], fdindex := [] }
      (.socket 5) =
      .thrown .unable_to_reindex_socket
        { items := [⟨5, 0, 1, 0⟩], index := [], fdindex := [] } :=
  duplicate_triggers_reindex_error 5 7 (by decide) (by decide) 1 1 2

/-- C17 (with a duplicate registration, removing an unrelated identity redirects
another identity to its stale entry). For pairwise distinct identities `c`, `a`
and `y`, of any kinds, `y` not a null socket handle, the calls add(c), add(a),
add(y, e1), add(y, e2), remove(a), remove(c) on an empty poller all return
normally; before remove(c) the entry `y` resolves to is the second
registration, with requested events `e2`, and after it `y` resolves to the
first one, with requested events `e1`, although `has(y)` is true before and
after. -/
theorem remove_redirects_duplicate (c a y : identity) (hy : y.valid)
    (hca : c ≠ a) (hcy : c ≠ y) (hay : a ≠ y) (ec ea e1 e2 : Int) :
    ∃ s5 s6,
      run [call.add c ec, call.add a ea, call.add y e1, call.add y e2, call.remove a]
        poller.empty = some s5 ∧
      s5.remove c = .ok () s6 ∧
      s5.resolve y = some (y.item e2) ∧ (y.item e2).events = e2 ∧
      s6.resolve y = some (y.item e1) ∧ (y.item e1).events = e1 ∧
      s5.has y = true ∧ s6.has y = true := by
  have hac := Ne.symm hca
  have hyc := Ne.symm hcy
  have hya := Ne.symm hay
  cases c <;> cases a <;> cases y <;>
    simp only [identity.valid, ne_eq, identity.socket.injEq, identity.descriptor.injEq,
      not_false_eq_true, reduceCtorEq] at hy hca hcy hay hac hyc hya <;>
    simp [run, call.perform, poller.add, poller.add_socket, poller.add_descriptor,
      poller.remove, poller.remove_socket, poller.remove_descriptor, poller.has,
      poller.has_socket, poller.has_descriptor, poller.resolve, poller.position,
      poller.reindex, Index.find, Index.assign, Index.erase_cons, Index.erase_nil,
      poller.empty, identity.item, *]

/-- Witness of C17: a descriptor, a socket, and socket 7 registered twice. -/
theorem remove_redirects_duplicate_witness :
    ∃ s5 s6,
      run [call.add (.descriptor 3) 1, call.add (.socket 5) 1, call.add (.socket 7) 1,
        call.add (.socket 7) 2, call.remove (.socket 5)] poller.empty = some s5 ∧
      s5.remove (.descriptor 3) = .ok () s6 ∧
      s5.resolve (.socket 7) = some (identity.item (.socket 7) 2) ∧
      (identity.item (.socket 7) 2).events = 2 ∧
      s6.resolve (.socket 7) = some (identity.item (.socket 7) 1) ∧
      (identity.item (.socket 7) 1).events = 1 ∧
      s5.has (.socket 7) = true ∧ s6.has (.socket 7) = true :=
  remove_redirects_duplicate (.descriptor 3) (.socket 5) (.socket 7) (by decide) (by decide)
    (by decide) (by decide) 1 1 1 2

/-! ## The raw poll-item overloads -/

/-- C18 (the raw poll-item overloads agree with the typed overloads). For every
poller state, every raw item and every mask, `has(item)`, `remove(item)`,
`check_for(item, e)` and `events(item)` give the result or error and the state
of the socket overload applied to `item.socket` when that field is non-null,
and of the descriptor overload applied to `item.fd` when it is null; no other
field of the item is read. -/
theorem raw_item_overloads (s : poller) (item : zmq_pollitem_t) (e : Int) :
    s.has_item item =
      (if item.socket ≠ 0 then s.has_socket item.socket else s.has_descriptor item.fd) ∧
    s.remove_item item =
      (if item.socket ≠ 0 then s.remove_socket item.socket
        else s.remove_descriptor item.fd) ∧
    s.check_for_item item e =
      (if item.socket ≠ 0 then s.check_for_socket item.socket e
        else s.check_for_descriptor item.fd e) ∧
    s.events_item item =
      (if item.socket ≠ 0 then s.events_socket item.socket
        else s.events_descriptor item.fd) := by
  by_cases h : item.socket = 0
  · simp [poller.has_item, poller.remove_item, poller.check_for_item, poller.events_item,
      poller.has_descriptor, h]
  · refine ⟨?_, ?_, ?_, ?_⟩
    · simp [poller.has_item, poller.has_socket, h]
    · simp only [poller.remove_item, h, if_false, ne_eq, not_false_eq_true, if_true]
      rfl
    · simp only [poller.check_for_item, h, if_false, ne_eq, not_false_eq_true, if_true]
      rfl
    · simp only [poller.events_item, h, if_false, ne_eq, not_false_eq_true, if_true]
      rfl

/-- C19 (add of a raw poll item stores it verbatim and indexes it by kind). For
every state and every raw item, `add(item)` returns normally, appends the item
unchanged, observed events included, and assigns its position to `item.fd` in
the descriptor index when `item.socket` is null and to `item.socket` in the
handle index otherwise, leaving the other index alone. It yields the state of
the typed `add(identity, item.events)` exactly when `item.revents = 0` and, for
a non-null socket, `item.fd = 0`; and `events(identity)` right after
`add(item)` returns `item.revents`. -/
theorem add_item_verbatim (s : poller) (item : zmq_pollitem_t) :
    ∃ s', s.add_item item = .ok () s' ∧
      s'.items = s.items ++ [item] ∧
      (item.socket = 0 →
        s'.fdindex = Index.assign s.fdindex item.fd s.items.length ∧ s'.index = s.index) ∧
      (item.socket ≠ 0 →
        s'.index = Index.assign s.index item.socket s.items.length ∧
          s'.fdindex = s.fdindex) ∧
      (s.add_item item = s.add item.ident item.events ↔
        (item.revents = 0 ∧ (item.socket ≠ 0 → item.fd = 0))) ∧
      s'.events item.ident = .ok item.revents s' := by
  have hget : (s.items ++ [item])[s.items.length]? = some item := by
    rw [List.getElem?_append_right (le_refl _)]
    simp
  obtain ⟨sk, fd, ev, rev⟩ := item
  by_cases h : sk = 0
  · subst h
    refine ⟨{ s with items := s.items ++ [⟨0, fd, ev, rev⟩],
                     fdindex := Index.assign s.fdindex fd s.items.length }, ?_, rfl, ?_, ?_, ?_, ?_⟩
    · simp [poller.add_item]
    · intro _
      exact ⟨rfl, rfl⟩
    · intro hne
      exact absurd rfl hne
    · simp [poller.add_item, poller.add, poller.add_descriptor, zmq_pollitem_t.ident]
    · simp [poller.events, poller.events_descriptor, zmq_pollitem_t.ident, poller.get_revents,
        Index.find_assign, hget]
  · refine ⟨{ s with items := s.items ++ [⟨sk, fd, ev, rev⟩],
                     index := Index.assign s.index sk s.items.length }, ?_, rfl, ?_, ?_, ?_, ?_⟩
    · simp [poller.add_item, h]
    · intro h0
      exact absurd h0 h
    · intro _
      exact ⟨rfl, rfl⟩
    · simp [poller.add_item, poller.add, poller.add_socket, zmq_pollitem_t.ident, h]
      exact and_comm
    · simp [poller.events, poller.events_socket, zmq_pollitem_t.ident, poller.get_revents,
        Index.find_assign, hget, h]

/-- Witness of C19: a socket item carrying a stale fd and observed events. -/
theorem add_item_verbatim_witness :
    ∃ s', poller.add_item { items := [⟨0, 3, 1, 0⟩], index := [], fdindex := [(3, 0)] }
        ⟨5, 9, 1, 2⟩ = .ok () s' ∧
      s'.items = [⟨0, 3, 1, 0⟩] ++ [⟨5, 9, 1, 2⟩] ∧
      ((5 : Nat) = 0 →
        s'.fdindex = Index.assign [(3, 0)] 9 1 ∧ s'.index = []) ∧
      ((5 : Nat) ≠ 0 →
        s'.index = Index.assign [] 5 1 ∧ s'.fdindex = [(3, 0)]) ∧
      (poller.add_item { items := [⟨0, 3, 1, 0⟩], index := [], fdindex := [(3, 0)] }
          ⟨5, 9, 1, 2⟩ =
        poller.add { items := [⟨0, 3, 1, 0⟩], index := [], fdindex := [(3, 0)] }
          (zmq_pollitem_t.ident ⟨5, 9, 1, 2⟩) 1 ↔
        ((2 : Int) = 0 ∧ ((5 : Nat) ≠ 0 → (9 : Int) = 0))) ∧
      s'.events (zmq_pollitem_t.ident ⟨5, 9, 1, 2⟩) = .ok 2 s' :=
  add_item_verbatim { items := [⟨0, 3, 1, 0⟩], index := [], fdindex := [(3, 0)] } ⟨5, 9, 1, 2⟩

end zmqpp
